import Mathlib

/-!
# Verification of the MyPack++ cross-frame observation / navigation code

Shallow embedding of `src/utils/iframe.ts` and `src/content/navigation.ts`.

The browser DOM is modelled as a tree of element nodes (`ENode`); an
`<iframe>` element may carry a content document (`content`), which is the
root element of a separate document tree.  CSS selectors are modelled in
parsed form (as the code itself manipulates the `css-what` token stream):
a selector is a list of comma-separated segments, each segment a list of
tokens (simple selectors and combinators).  Scroll metrics `scrollHeight`
and `clientHeight` are carried on each node for the scroll-restoration
logic of `navigation.ts`.
-/

namespace MyPack

/-- A selector token, mirroring the `css-what` AST tokens the source code
manipulates (`tag`, pseudo `:nth-of-type(k)`, universal, and the two
traversal combinators the engine splits on: descendant and child). -/
inductive Tok where
  | tag (name : String)
  | univ
  | nth (k : Nat)
  | descendant
  | child
deriving DecidableEq, Repr

/-- A parsed selector: comma-separated segments, each a token list
(the shape returned by `parse` from `css-what`). -/
abbrev Selector := List (List Tok)

/-- Is a token one of the traversal combinators (`isTraversal` from
`css-what`, restricted to the combinators present in this token model)? -/
def Tok.isTraversal : Tok → Bool
  | .descendant => true
  | .child => true
  | _ => false

/-- A DOM element node.  `content` is the `contentDocument` of an iframe
element (`none` when absent or inaccessible, e.g. cross-origin);
`sh`/`ch` are `scrollHeight`/`clientHeight`; `kids` are the element's
child elements in document order. -/
inductive ENode where
  | mk (tag : String) (content : Option ENode) (sh ch : Nat) (kids : List ENode)

/-- The element's tag name. -/
def ENode.tagName : ENode → String
  | .mk t _ _ _ _ => t

/-- The element's content document (iframes only). -/
def ENode.content : ENode → Option ENode
  | .mk _ c _ _ _ => c

/-- The element's `scrollHeight`. -/
def ENode.sh : ENode → Nat
  | .mk _ _ s _ _ => s

/-- The element's `clientHeight`. -/
def ENode.ch : ENode → Nat
  | .mk _ _ _ c _ => c

/-- The element's children in document order. -/
def ENode.kids : ENode → List ENode
  | .mk _ _ _ _ ks => ks

mutual
/-- Total number of element nodes in a tree, content documents included. -/
def esize : ENode → Nat
  | .mk _ c _ _ kids => 1 + esizeO c + esizeL kids

/-- `esize` on an optional node. -/
def esizeO : Option ENode → Nat
  | none => 0
  | some e => esize e

/-- Summed `esize` over a list of nodes. -/
def esizeL : List ENode → Nat
  | [] => 0
  | e :: es => esize e + esizeL es
end

theorem esizeL_mem_le {e : ENode} {l : List ENode} (h : e ∈ l) : esize e ≤ esizeL l := by
  induction l with
  | nil => cases h
  | cons x xs ih =>
    rcases List.mem_cons.mp h with h | h
    · subst h; simp only [esizeL]; omega
    · have := ih h; simp only [esizeL]; omega

theorem esize_pos (e : ENode) : 0 < esize e := by
  cases e with
  | mk t c sh ch kids => simp only [esize]; omega

theorem esize_kid_lt {e k : ENode} (h : k ∈ e.kids) : esize k < esize e := by
  cases e with
  | mk t c sh ch kids =>
    have h1 : esize k ≤ esizeL kids := esizeL_mem_le h
    simp only [ENode.kids] at h
    simp only [esize]
    omega

theorem esize_content_lt {e c : ENode} (h : e.content = some c) : esize c < esize e := by
  cases e with
  | mk t c0 sh ch kids =>
    simp only [ENode.content] at h
    subst h
    simp only [esize, esizeO]
    omega

/-- Strong-induction principle for `ENode` providing hypotheses for the
children and for the content document. -/
theorem ENode.strongInd (motive : ENode → Prop)
    (step : ∀ e : ENode, (∀ k ∈ e.kids, motive k) →
      (∀ c, e.content = some c → motive c) → motive e) :
    ∀ e, motive e := by
  have H : ∀ n (e : ENode), esize e ≤ n → motive e := by
    intro n
    induction n with
    | zero => intro e he; have := esize_pos e; omega
    | succ n ih =>
      intro e he
      exact step e
        (fun k hk => ih k (by have := esize_kid_lt hk; omega))
        (fun c hc => ih c (by have := esize_content_lt hc; omega))
  intro e
  exact H (esize e) e le_rfl

/-! ## Selector semantics (the browser's `querySelector(All)`, per document)

The source code delegates in-document matching to the native
`querySelector`/`querySelectorAll`.  We model that native semantics here:
an element is identified by its path (list of child indices) from the
document root; matching is defined on the element's tag, its
`nth-of-type` position among its siblings, and its ancestor chain. -/

/-- Path of an element inside one document: child indices from the root. -/
abbrev EPath := List Nat

/-- Element lookup by path within one document (never crosses a frame
boundary). -/
def elemAt : ENode → EPath → Option ENode
  | e, [] => some e
  | e, i :: p => match e.kids[i]? with
    | some k => elemAt k p
    | none => none

/-- The data compound selectors are matched against: tag name and 1-based
`nth-of-type` position among same-tag siblings. -/
abbrev PosTag := String × Nat

/-- The match context of one element occurrence: its path, its ancestor
chain (nearest first), its own tag/position, and the node itself (real
`querySelectorAll` returns the element objects). -/
structure Ctx where
  path : EPath
  anc : List PosTag
  pt : PosTag
  node : ENode

mutual
/-- Preorder (document order) enumeration of all elements of a document
with their match contexts. -/
def ctxNode (anc : List PosTag) (p : EPath) (pt : PosTag) : ENode → List Ctx
  | .mk t c sh ch kids =>
    ⟨p, anc, pt, .mk t c sh ch kids⟩ :: ctxKids (pt :: anc) p [] kids

/-- Context enumeration of a list of siblings; `before` holds the earlier
siblings (used for the `nth-of-type` position). -/
def ctxKids (anc : List PosTag) (p : EPath) (before : List ENode) :
    List ENode → List Ctx
  | [] => []
  | k :: ks =>
    ctxNode anc (p ++ [before.length])
      (k.tagName, 1 + (before.filter (fun b => b.tagName == k.tagName)).length) k
      ++ ctxKids anc p (before ++ [k]) ks
end

/-- All match contexts of a document, in document order.  The root element
has no siblings, so its `nth-of-type` position is 1. -/
def docCtx (d : ENode) : List Ctx := ctxNode [] [] (d.tagName, 1) d

/-- A combinator between two compounds of a complex selector. -/
inductive Comb where
  | desc
  | chld

/-- A complex selector in structured form: left-nested compounds joined by
combinators, with the rightmost compound outermost. -/
inductive CSel where
  | base (c : List Tok)
  | comb (l : CSel) (cb : Comb) (c : List Tok)

/-- Does an element (given as tag/position data) match every simple
selector of a compound? -/
def matchesCompound (pt : PosTag) (c : List Tok) : Bool :=
  c.all fun t => match t with
    | .tag n => pt.1 == n
    | .univ => true
    | .nth k => pt.2 == k
    | _ => false

/-- Every way of picking one ancestor together with the chain above it. -/
def ancSplits : List PosTag → List (PosTag × List PosTag)
  | [] => []
  | a :: rest => (a, rest) :: ancSplits rest

/-- Complex-selector matching: the rightmost compound must match the
element, a `child` combinator constrains the parent, a `descendant`
combinator constrains some ancestor. -/
def matchesCSel : CSel → List PosTag → PosTag → Bool
  | .base c, _, pt => matchesCompound pt c
  | .comb l .chld c, anc, pt =>
    matchesCompound pt c &&
      (match anc with
       | [] => false
       | a :: rest => matchesCSel l rest a)
  | .comb l .desc c, anc, pt =>
    matchesCompound pt c && (ancSplits anc).any fun s => matchesCSel l s.2 s.1

/-- Finish the structured selector built so far with the current compound. -/
def segFinish : Option (CSel × Comb) → List Tok → CSel
  | none, cur => .base cur
  | some (l, cb), cur => .comb l cb cur

/-- Left-to-right conversion of a token segment into a structured complex
selector (`acc` is the part left of the current compound, `cur` the
compound being accumulated). -/
def segToCSelGo (acc : Option (CSel × Comb)) (cur : List Tok) :
    List Tok → CSel
  | [] => segFinish acc cur
  | .descendant :: ts => segToCSelGo (some (segFinish acc cur, .desc)) [] ts
  | .child :: ts => segToCSelGo (some (segFinish acc cur, .chld)) [] ts
  | t :: ts => segToCSelGo acc (cur ++ [t]) ts

/-- Structured form of a token segment. -/
def segToCSel (toks : List Tok) : CSel := segToCSelGo none [] toks

/-- Native `document.querySelectorAll`: the contexts, in document order,
of the elements matching any segment of the selector. -/
def qsaCtx (d : ENode) (sel : Selector) : List Ctx :=
  (docCtx d).filter fun c =>
    sel.any fun seg => matchesCSel (segToCSel seg) c.anc c.pt

/-- Native `document.querySelectorAll`, as element paths. -/
def qsaPaths (d : ENode) (sel : Selector) : List EPath :=
  (qsaCtx d sel).map Ctx.path

/-- Native `document.querySelector`: the first match in document order. -/
def qsHead (d : ENode) (sel : Selector) : Option EPath :=
  (qsaPaths d sel).head?

/-! ## Cross-document references and the cross-frame query engine
(`globalQuerySelectorInternal`, `src/utils/iframe.ts` lines 143-235) -/

/-- Reference to a document in the frame tree: the chain of iframe-element
paths crossed from the main document, innermost frame first (`[]` is the
main document itself). -/
abbrev DocRef := List EPath

/-- A located document: its reference chain together with its root node. -/
abbrev LDoc := DocRef × ENode

/-- A located element: the reference of its owning document and its path
inside that document. -/
abbrev GRef := DocRef × EPath

/-- Resolve a document reference against the main document root. -/
def docNodeAt (r : ENode) : DocRef → Option ENode
  | [] => some r
  | p :: ps => match docNodeAt r ps with
    | some dn => match elemAt dn p with
      | some e => e.content
      | none => none
    | none => none

/-- One frame-descent step of the engine (lines 205-213 of `iframe.ts`):
for each candidate document, query the accumulated iframe selector prefix,
take the matched elements' `contentDocument`s and drop the unavailable
ones. -/
def splitDocs (docs : List LDoc) (pending : List Tok) : List LDoc :=
  docs.flatMap fun ld =>
    (qsaCtx ld.2 [pending]).filterMap fun c =>
      c.node.content.map fun cd => (c.path :: ld.1, cd)

/-- The token-scanning loop of the frame-qualified mode (lines 188-219):
`flag` is `lastTagIsIframe`, `pending` the token slice since `start`.  The
source loop stops one token before the end (`i < segment.length - 1`), so
a final single token is appended to `pending` unexamined; on a
child/descendant combinator while `flag` holds, the engine descends into
the content documents of the iframes matching `pending`. -/
def fqLoop (docs : List LDoc) (flag : Bool) (pending : List Tok) :
    List Tok → List LDoc × List Tok
  | [] => (docs, pending)
  | [t] => (docs, pending ++ [t])
  | t :: ts =>
    let flag1 := flag || (match t with | .tag n => n == "iframe" | _ => false)
    if flag1 && t.isTraversal then
      fqLoop (splitDocs docs pending) false [] ts
    else
      fqLoop docs (flag1 && !t.isTraversal) (pending ++ [t]) ts

/-- Frame-qualified evaluation of one selector segment, all-matches form:
query the remaining selector slice in every candidate document
(lines 221-231 with `all = true`). -/
def fqAllSeg (d0 : LDoc) (seg : List Tok) : List GRef :=
  let r := fqLoop [d0] false [] seg
  r.1.flatMap fun ld => (qsaPaths ld.2 [r.2]).map fun p => (ld.1, p)

/-- Frame-qualified evaluation of a selector, all-matches form: results
are concatenated over the comma-separated segments (line 188). -/
def fqAll (d0 : LDoc) (sel : Selector) : List GRef :=
  sel.flatMap (fqAllSeg d0)

/-- Frame-qualified evaluation of one segment, first-match form
(lines 224-230 with `all = false`). -/
def fqOneSeg (d0 : LDoc) (seg : List Tok) : Option GRef :=
  let r := fqLoop [d0] false [] seg
  r.1.findSome? fun ld => (qsHead ld.2 [r.2]).map fun p => (ld.1, p)

/-- Frame-qualified evaluation of a selector, first-match form: the first
segment producing a match wins. -/
def fqOne (d0 : LDoc) (sel : Selector) : Option GRef :=
  sel.findSome? (fqOneSeg d0)

/-- The child documents discovered while flat-mode scanning a document
(line 177-181: `doc.querySelectorAll("iframe")`, mapped to
`contentDocument`, nulls dropped). -/
def subdocRefs (ld : LDoc) : List LDoc :=
  splitDocs [ld] [Tok.tag "iframe"]

theorem esizeL_append (a b : List ENode) :
    esizeL (a ++ b) = esizeL a + esizeL b := by
  induction a with
  | nil => simp [esizeL]
  | cons x xs ih =>
    simp only [List.cons_append, esizeL, List.append_eq] at *
    omega

theorem esizeL_sublist_le {a b : List ENode} (h : a.Sublist b) :
    esizeL a ≤ esizeL b := by
  induction h with
  | slnil => exact le_rfl
  | cons x _ ih => simp only [esizeL]; omega
  | cons₂ x _ ih => simp only [esizeL]; omega

/-- Summed size of the content documents hanging off all elements of a
document (used only for termination of the flat-mode worklist). -/
def ctxContentWeight (l : List Ctx) : Nat :=
  esizeL (l.filterMap fun c => c.node.content)

theorem ctxContentWeight_append (a b : List Ctx) :
    ctxContentWeight (a ++ b) = ctxContentWeight a + ctxContentWeight b := by
  simp [ctxContentWeight, List.filterMap_append, esizeL_append]

mutual
theorem ctxNode_content_weight_lt (e : ENode) :
    ∀ anc p pt, ctxContentWeight (ctxNode anc p pt e) < esize e := by
  cases e with
  | mk t c sh ch kids =>
    intro anc p pt
    have hk := ctxKids_content_weight_le kids (pt :: anc) p ([] : List ENode)
    simp only [ctxNode, esize, ctxContentWeight, List.filterMap_cons,
      ENode.content] at *
    cases c with
    | none => simp only [esizeO]; omega
    | some cc => simp only [esizeO, esizeL]; omega

theorem ctxKids_content_weight_le (kids : List ENode) :
    ∀ anc p before, ctxContentWeight (ctxKids anc p before kids) ≤ esizeL kids := by
  cases kids with
  | nil =>
    intro anc p before
    simp [ctxKids, ctxContentWeight, esizeL]
  | cons k ks =>
    intro anc p before
    have h1 := ctxNode_content_weight_lt k anc (p ++ [before.length])
      (k.tagName, 1 + (before.filter (fun b => b.tagName == k.tagName)).length)
    have h2 := ctxKids_content_weight_le ks anc p (before ++ [k])
    simp only [ctxKids, ctxContentWeight_append, esizeL]
    omega
end

theorem docCtx_content_weight_lt (d : ENode) :
    ctxContentWeight (docCtx d) < esize d :=
  ctxNode_content_weight_lt d [] [] (d.tagName, 1)

/-- Weight of a worklist: summed sizes of the carried documents. -/
def wsum (stack : List LDoc) : Nat :=
  esizeL (stack.map Prod.snd)

theorem splitDocs_single_weight_lt (ld : LDoc) (pending : List Tok) :
    wsum (splitDocs [ld] pending) < esize ld.2 := by
  have hsub : ((qsaCtx ld.2 [pending]).filterMap fun c => c.node.content).Sublist
      ((docCtx ld.2).filterMap fun c => c.node.content) :=
    List.Sublist.filterMap _ (List.filter_sublist _)
  have hle := esizeL_sublist_le hsub
  have hlt := docCtx_content_weight_lt ld.2
  simp only [ctxContentWeight] at hlt
  have hmap : (splitDocs [ld] pending).map Prod.snd
      = (qsaCtx ld.2 [pending]).filterMap fun c => c.node.content := by
    simp only [splitDocs, List.flatMap_cons, List.flatMap_nil, List.append_nil]
    rw [List.map_filterMap]
    congr 1
    funext c
    cases c.node.content <;> simp
  simp only [wsum, hmap]
  omega

theorem wsum_append (a b : List LDoc) : wsum (a ++ b) = wsum a + wsum b := by
  simp [wsum, esizeL_append]

theorem wsum_reverse (a : List LDoc) : wsum a.reverse = wsum a := by
  induction a with
  | nil => rfl
  | cons x xs ih =>
    rw [List.reverse_cons, wsum_append, ih]
    simp only [wsum, List.map_cons, List.map_nil, esizeL]
    omega

/-- Flat-mode worklist (lines 152-183).  The source keeps the stack in an
array with `pop()` taking the *last* element and `push` appending the
child documents in document order; we keep the same stack reversed, so
the top is the head and the children are pushed reversed. -/
def flatAllLoop (sel : Selector) : List LDoc → List GRef
  | [] => []
  | ld :: rest => fqAll ld sel ++ flatAllLoop sel ((subdocRefs ld).reverse ++ rest)
termination_by stack => wsum stack
decreasing_by
  rw [wsum_append, wsum_reverse, subdocRefs]
  have h := splitDocs_single_weight_lt ld [Tok.tag "iframe"]
  simp only [wsum, List.map_cons, esizeL] at *
  omega

/-- Flat-mode worklist, first-match form: per visited document the
frame-qualified single query is tried, and the first hit is returned
(lines 167-175). -/
def flatOneLoop (sel : Selector) : List LDoc → Option GRef
  | [] => none
  | ld :: rest =>
    match fqOne ld sel with
    | some g => some g
    | none => flatOneLoop sel ((subdocRefs ld).reverse ++ rest)
termination_by stack => wsum stack
decreasing_by
  rw [wsum_append, wsum_reverse, subdocRefs]
  have h := splitDocs_single_weight_lt ld [Tok.tag "iframe"]
  simp only [wsum, List.map_cons, esizeL] at *
  omega

/-- `globalQuerySelectorAll(selector, searchAllDocuments)` evaluated
against main document `root` (parsed selector form). -/
def globalQuerySelectorAll (root : ENode) (sel : Selector)
    (searchAllDocuments : Bool) : List GRef :=
  if searchAllDocuments then flatAllLoop sel [([], root)]
  else fqAll ([], root) sel

/-- `globalQuerySelector(selector, searchAllDocuments)` evaluated against
main document `root` (parsed selector form). -/
def globalQuerySelector (root : ENode) (sel : Selector)
    (searchAllDocuments : Bool) : Option GRef :=
  if searchAllDocuments then flatOneLoop sel [([], root)]
  else fqOne ([], root) sel

/-! ## `GlobalMutationObserver` (`src/utils/iframe.ts` lines 6-99)

Each underlying native `MutationObserver` is modelled by its pending
(buffered, undelivered) record queue; the record payload is opaque, so a
record is just a `Nat` tag.  Mutation callbacks and the
`onDocumentDiscovered` hook are modelled as outputs: each operation
returns the list of newly discovered document references. -/

/-- An opaque mutation record. -/
abbrev MRec := Nat

/-- The `MutationObserverInit` options the constructor defaults and
`observe` may overwrite (`childList`/`subtree` granularity). -/
structure MOpts where
  childList : Bool
  subtree : Bool
deriving DecidableEq, Repr

/-- State of a `GlobalMutationObserver`: the created native observers in
creation (discovery) order, each as its pending-record buffer; the
observed-document set in insertion order; and the stored options. -/
structure GMOState where
  observers : List (List MRec)
  observedDocs : List DocRef
  options : MOpts
deriving DecidableEq, Repr

/-- Does a document expose a `body` (the `iframeDoc?.body` truthiness
check of line 66)? -/
def hasBody (d : ENode) : Bool :=
  d.kids.any fun k => k.tagName == "body"

/-- Weight of one worklist frame of the iframe-discovery recursion. -/
def frameW (f : DocRef × List Ctx) : Nat :=
  (f.2.map fun c => esizeO c.node.content).sum

/-- Summed frame weight of the worklist. -/
def stackW (st : List (DocRef × List Ctx)) : Nat := (st.map frameW).sum

/-- Summed count of unprocessed iframe contexts plus frame count. -/
def stackL (st : List (DocRef × List Ctx)) : Nat :=
  (st.map fun f => f.2.length).sum + st.length

theorem sum_esizeO_eq_filterMap (l : List Ctx) :
    (l.map fun c => esizeO c.node.content).sum
      = esizeL (l.filterMap fun c => c.node.content) := by
  induction l with
  | nil => simp [esizeL]
  | cons x xs ih =>
    cases hx : x.node.content <;>
      simp [List.filterMap_cons, hx, esizeL, esizeO, ih]

mutual
theorem ctxNode_length_weight (e : ENode) :
    ∀ anc p pt, (ctxNode anc p pt e).length
      + ctxContentWeight (ctxNode anc p pt e) = esize e := by
  cases e with
  | mk t c sh ch kids =>
    intro anc p pt
    have hk := ctxKids_length_weight kids (pt :: anc) p ([] : List ENode)
    simp only [ctxNode, esize, ctxContentWeight, List.filterMap_cons,
      List.length_cons, ENode.content] at *
    cases c with
    | none => simp only [esizeO]; omega
    | some cc => simp only [esizeO, esizeL]; omega

theorem ctxKids_length_weight (kids : List ENode) :
    ∀ anc p before, (ctxKids anc p before kids).length
      + ctxContentWeight (ctxKids anc p before kids) = esizeL kids := by
  cases kids with
  | nil =>
    intro anc p before
    simp [ctxKids, ctxContentWeight, esizeL]
  | cons k ks =>
    intro anc p before
    have h1 := ctxNode_length_weight k anc (p ++ [before.length])
      (k.tagName, 1 + (before.filter (fun b => b.tagName == k.tagName)).length)
    have h2 := ctxKids_length_weight ks anc p (before ++ [k])
    simp only [ctxKids, ctxContentWeight_append, List.length_append, esizeL]
    omega
end

theorem docCtx_length_weight (d : ENode) :
    (docCtx d).length + ctxContentWeight (docCtx d) = esize d :=
  ctxNode_length_weight d [] [] (d.tagName, 1)

theorem qsaCtx_sublist (d : ENode) (sel : Selector) :
    (qsaCtx d sel).Sublist (docCtx d) := List.filter_sublist _

theorem qsaCtx_weight_le (d : ENode) (sel : Selector) :
    ctxContentWeight (qsaCtx d sel) ≤ ctxContentWeight (docCtx d) :=
  esizeL_sublist_le (List.Sublist.filterMap _ (qsaCtx_sublist d sel))

theorem qsaCtx_length_le (d : ENode) (sel : Selector) :
    (qsaCtx d sel).length ≤ (docCtx d).length :=
  List.Sublist.length_le (qsaCtx_sublist d sel)

theorem docCtx_length_pos (d : ENode) : 0 < (docCtx d).length := by
  cases d with
  | mk t c sh ch kids => simp [docCtx, ctxNode]

/-- The iframe-discovery recursion `observeIframes` (lines 60-80), with
the call stack made explicit: each frame is a document reference together
with the iframes of that document not yet examined.  For every iframe
whose content document renders a `body` and is not yet tracked, the
document is added, a discovery notification is emitted, a fresh observer
(empty buffer) is registered on its body, and its own iframes are scanned
first (depth-first), exactly as the source recursion does. -/
def obsGo : List (DocRef × List Ctx) → GMOState → GMOState × List DocRef
  | [], s => (s, [])
  | (_, []) :: rest, s => obsGo rest s
  | (d, c :: cs) :: rest, s =>
    match hcd : c.node.content with
    | none => obsGo ((d, cs) :: rest) s
    | some cd =>
      if hasBody cd = true ∧ (c.path :: d) ∉ s.observedDocs then
        let s1 : GMOState :=
          { s with observedDocs := s.observedDocs ++ [c.path :: d],
                   observers := s.observers ++ [[]] }
        let r := obsGo ((c.path :: d, qsaCtx cd [[Tok.tag "iframe"]]) :: (d, cs) :: rest) s1
        (r.1, (c.path :: d) :: r.2)
      else obsGo ((d, cs) :: rest) s
termination_by st _ => 2 * stackW st + stackL st
decreasing_by
  · simp only [stackW, stackL, List.map_cons, List.sum_cons, frameW,
      List.length_cons, List.map_nil, List.sum_nil, List.length_nil]
    omega
  · simp only [stackW, stackL, List.map_cons, List.sum_cons, frameW,
      List.length_cons, hcd, esizeO]
    omega
  · simp only [stackW, stackL, List.map_cons, List.sum_cons, frameW,
      List.length_cons, hcd, esizeO]
    have h1 : (qsaCtx cd [[Tok.tag "iframe"]]).length
        + ctxContentWeight (qsaCtx cd [[Tok.tag "iframe"]]) ≤ esize cd := by
      have := qsaCtx_weight_le cd [[Tok.tag "iframe"]]
      have := qsaCtx_length_le cd [[Tok.tag "iframe"]]
      have := docCtx_length_weight cd
      omega
    have h2 : ((qsaCtx cd [[Tok.tag "iframe"]]).map
        fun c => esizeO c.node.content).sum
        = ctxContentWeight (qsaCtx cd [[Tok.tag "iframe"]]) := by
      simp [sum_esizeO_eq_filterMap, ctxContentWeight]
    have h3 := esize_pos cd
    have h4 : ctxContentWeight (qsaCtx cd [[Tok.tag "iframe"]]) + 1 ≤ esize cd := by
      have := qsaCtx_weight_le cd [[Tok.tag "iframe"]]
      have := docCtx_length_weight cd
      have := docCtx_length_pos cd
      omega
    omega
  · simp only [stackW, stackL, List.map_cons, List.sum_cons, frameW,
      List.length_cons, hcd, esizeO]
    have h3 := esize_pos cd
    omega

/-- `GlobalMutationObserver.observe(target, options)` (lines 28-55).
`target` is modelled by its owning document's reference (the code derives
`doc = target.ownerDocument || target`).  If an options argument is
passed it overwrites the stored options; if the owning document is not
yet tracked, it is added and notified, two observers are registered (the
main one and the iframe detector, lines 41-50) and the document's iframes
are scanned recursively.  Returns the new state and the discovery
notifications fired, in order. -/
def gmoObserve (root : ENode) (s : GMOState) (targetDoc : DocRef)
    (opts : Option MOpts) : GMOState × List DocRef :=
  let s0 : GMOState := match opts with
    | some o => { s with options := o }
    | none => s
  if targetDoc ∈ s0.observedDocs then (s0, [])
  else
    let s1 : GMOState :=
      { s0 with observedDocs := s0.observedDocs ++ [targetDoc],
                observers := s0.observers ++ [[], []] }
    let cs := match docNodeAt root targetDoc with
      | some dn => qsaCtx dn [[Tok.tag "iframe"]]
      | none => []
    let r := obsGo [(targetDoc, cs)] s1
    (r.1, targetDoc :: r.2)

/-- `GlobalMutationObserver.takeRecords()` (lines 96-98): concatenates the
buffered records of every underlying observer, in creation order.  The
underlying native `takeRecords` calls *empty* each observer's pending
queue, so the state after the call has all buffers drained. -/
def gmoTakeRecords (s : GMOState) : List MRec × GMOState :=
  (s.observers.flatMap id,
   { s with observers := s.observers.map fun _ => [] })

/-- `GlobalMutationObserver.disconnect()` (lines 85-91): disconnects every
underlying observer and clears all discovery state. -/
def gmoDisconnect (s : GMOState) : GMOState :=
  { s with observers := [], observedDocs := [] }

/-! ## Navigation state machine (`src/content/navigation.ts`)

Selector strings of the source are carried in parsed form throughout (the
engine parses them with `css-what` anyway, and `parse ∘ stringify` is the
identity on this fragment), so string comparison of selectors becomes
`Selector` equality. -/

/-- A navigation stack entry `{selector, index}` (line 11). -/
structure NavEntry where
  selector : Selector
  index : Nat
deriving DecidableEq, Repr

/-- A node of the static navigation-descriptor tree (line 10).  A missing
`children` field behaves exactly like an empty list (the source only ever
recurses over it), so it is modelled as a plain list. -/
inductive NavElement where
  | mk (selector : Selector) (children : List NavElement)

/-- Selector of a descriptor node. -/
def NavElement.selector : NavElement → Selector
  | .mk s _ => s

/-- Children of a descriptor node. -/
def NavElement.children : NavElement → List NavElement
  | .mk _ cs => cs

/-- A JSON value, as far as the persisted session record is concerned.
Leaves that the real record stores as selector strings carry the parsed
selector. -/
inductive Json where
  | obj (fields : List (String × Json))
  | arr (items : List Json)
  | sel (s : Selector)
  | num (n : Int)
  | null

/-- Object-field lookup (`.field` access on a parsed JSON value). -/
def Json.get : Json → String → Option Json
  | .obj fs, k => fs.lookup k
  | _, _ => none

/-- Reading of one stack entry out of recovered JSON.  (The source casts
the parsed value unchecked; values that do not have the entry shape are
dropped here, a difference invisible to the claims, which only exercise
the unparseable and the absent record.) -/
def jEntry : Json → Option NavEntry
  | .obj fs => match fs.lookup "selector", fs.lookup "index" with
    | some (.sel s), some (.num n) => some ⟨s, n.toNat⟩
    | _, _ => none
  | _ => none

/-- `JSON.parse(stored).navigationStack ?? []` decoded to entries. -/
def jNavStack (j : Json) : List NavEntry :=
  match j.get "navigationStack" with
  | some (.arr items) => items.filterMap jEntry
  | _ => []

/-- `JSON.parse(stored).scrollPositions ?? {}` decoded to a map (the keys
are derived selector strings, kept as plain strings here). -/
def jScrollPositions (j : Json) : List (String × Nat) :=
  match j.get "scrollPositions" with
  | some (.obj fs) => fs.filterMap fun f => match f.2 with
    | .num n => some (f.1, n.toNat)
    | _ => none
  | _ => []

/-- The `useState` initializer for `navigationStack` (lines 42-45):
`JSON.parse` is the browser's JSON parser, modelled as a function
returning `none` exactly when it throws `SyntaxError`; the initializer
has no `try`/`catch`, so a parse failure propagates as `Except.error`. -/
def navInitStack (parse : String → Option Json) (stored : Option String) :
    Except Unit (List NavEntry) :=
  match stored with
  | none => .ok []
  | some s => match parse s with
    | none => .error ()
    | some j => .ok (jNavStack j)

/-- The `useState` initializer for `scrollPositions` (lines 47-52), same
structure as `navInitStack`. -/
def navInitScroll (parse : String → Option Json) (stored : Option String) :
    Except Unit (List (String × Nat)) :=
  match stored with
  | none => .ok []
  | some s => match parse s with
    | none => .error ()
    | some j => .ok (jScrollPositions j)

/-- The click-handler stack replacement (lines 95-103): keep the prior
entries below the clicked depth, pad levels not yet represented with
`{selector, index: 0}` defaults from the descriptor path, then push the
clicked entry. -/
def clickNewStack (prev : List NavEntry) (path : List NavElement)
    (selector : Selector) (index : Nat) : List NavEntry :=
  let newStack := prev.take path.length
  let padded := newStack ++ (path.drop newStack.length).map
    fun p => ({ selector := p.selector, index := 0 } : NavEntry)
  padded ++ [{ selector := selector, index := index }]

/-- The state threaded through one detection pass (`detectElements`,
lines 66-114): the replay cursor (`stackIndex`, reset at the start of
each pass), the elements programmatically clicked during replay, the
number of `RESET_LOADER` messages sent, the instrumented-selector set
(`trackedElements`, persists across passes), and whether
`restoreScrollPositions` has been invoked. -/
structure PassState where
  stackIndex : Nat
  clicks : List GRef
  resets : Nat
  tracked : List Selector
  restored : Bool
deriving DecidableEq, Repr

/-- The replay step of the detection pass (lines 76-88): when the stack
entry at the cursor matches this node's selector, request a loader reset
at depth 0, click the stored ordinal element if it exists (optional
chaining: a missing element is a silent no-op), advance the cursor, and
invoke scroll restoration when the cursor reaches the end of the stack. -/
def replayStep (navStack : List NavEntry) (elems : List GRef)
    (sel : Selector) (st : PassState) : PassState :=
  match navStack[st.stackIndex]? with
  | some cur =>
    if cur.selector = sel then
      let st1 := if st.stackIndex = 0 then { st with resets := st.resets + 1 } else st
      let clicked := elems[cur.index]?
      let st2 := { st1 with clicks := st1.clicks ++ clicked.toList, stackIndex := st1.stackIndex + 1 }
      if st2.stackIndex = navStack.length then { st2 with restored := true } else st2
    else st
  | none => st

mutual
/-- One descriptor node of the detection pass (lines 71-112): when the
node's selector currently matches at least one element (flat-mode query;
the settle delay re-query returns the same result over the static
snapshot), run the replay step, instrument the selector if it is new, and
recurse into the children. -/
def detectOne (root : ENode) (navStack : List NavEntry)
    (path : List NavElement) (st : PassState) : NavElement → PassState
  | .mk sel children =>
    let elems := globalQuerySelectorAll root sel true
    if elems.length > 0 then
      let st1 := replayStep navStack elems sel st
      let st2 := if sel ∈ st1.tracked then st1
        else { st1 with tracked := st1.tracked ++ [sel] }
      detectList root navStack (path ++ [NavElement.mk sel children]) st2 children
    else st

/-- The descriptor-list loop of the detection pass (line 71). -/
def detectList (root : ENode) (navStack : List NavEntry)
    (path : List NavElement) (st : PassState) : List NavElement → PassState
  | [] => st
  | e :: es => detectList root navStack path (detectOne root navStack path st e) es
end

/-! ### Scroll restoration for one map entry (lines 117-149)

Per entry, `restoreScrollPositions` installs a fresh mutation watcher
that re-runs `restore` on every mutation, arms a 10-second timeout that
drops the entry and disconnects the watcher, and runs `restore` once
eagerly.  `restore` queries the selector in frame-qualified mode and only
scrolls when the element's scrollable extent (`scrollHeight -
clientHeight`) reaches the recorded offset, in which case the watcher is
disconnected and the timeout cleared.  The real-time delay is abstracted
to the order of `mutation` and `timeout` events. -/

/-- Observable state of one scroll-map entry's restoration machinery. -/
structure ScrollW where
  inMap : Bool
  watcher : Bool
  timer : Bool
  scrolled : Bool
  attempts : Nat
deriving DecidableEq, Repr

/-- Resolve a located element reference against the main document root. -/
def grefNode (root : ENode) (g : GRef) : Option ENode :=
  match docNodeAt root g.1 with
  | some dn => elemAt dn g.2
  | none => none

/-- One invocation of `restore` (lines 119-130) against the current DOM:
a frame-qualified single query; on a sufficiently tall element, scroll,
disconnect the watcher and clear the timeout. -/
def sAttempt (sel : Selector) (top : Nat) (dom : ENode) (s : ScrollW) : ScrollW :=
  let s1 := { s with attempts := s.attempts + 1 }
  match globalQuerySelector dom sel false with
  | some g => match grefNode dom g with
    | some e =>
      if (e.sh : Int) - (e.ch : Int) ≥ (top : Int) then
        { s1 with scrolled := true, watcher := false, timer := false }
      else s1
    | none => s1
  | none => s1

/-- An externally scheduled event: a DOM mutation (with the DOM at that
moment) or the 10-second timeout firing. -/
inductive SEv where
  | mutation (dom : ENode)
  | timeout

/-- One event step: the watcher re-runs `restore` on every mutation while
connected; the timeout (if still armed) removes the entry from the map
and disconnects the watcher (lines 133-145). -/
def sStep (sel : Selector) (top : Nat) (s : ScrollW) : SEv → ScrollW
  | .mutation dom => if s.watcher then sAttempt sel top dom s else s
  | .timeout =>
    if s.timer then { s with inMap := false, watcher := false, timer := false }
    else s

/-- State of one entry right after `restoreScrollPositions` has set it up:
watcher installed, timeout armed, and one eager `restore` run (line 147). -/
def scrollSetup (sel : Selector) (top : Nat) (dom0 : ENode) : ScrollW :=
  sAttempt sel top dom0
    { inMap := true, watcher := true, timer := true, scrolled := false, attempts := 0 }

/-- Folding a sequence of events over an entry's state. -/
def sRun (sel : Selector) (top : Nat) (s : ScrollW) (evs : List SEv) : ScrollW :=
  evs.foldl (sStep sel top) s

/-- Does the DOM currently fail to offer a sufficiently tall element for
the entry (the negation of `restore`'s success condition)? -/
def sFails (sel : Selector) (top : Nat) (dom : ENode) : Bool :=
  match globalQuerySelector dom sel false with
  | some g => match grefNode dom g with
    | some e => decide ((e.sh : Int) - (e.ch : Int) < (top : Int))
    | none => true
  | none => true

/-- Are all events of a trace DOM mutations whose DOM fails the entry
(in particular, the trace contains no timeout)? -/
def sAllFail (sel : Selector) (top : Nat) (evs : List SEv) : Bool :=
  evs.all fun ev => match ev with
    | .mutation dom => sFails sel top dom
    | .timeout => false

/-! ## Structure of tag-only queries

`querySelectorAll("iframe")` (and any single-tag selector) filters the
document-order enumeration by tag name; these lemmas restate that in
structural terms, for use by the frame-descent claims. -/

mutual
theorem ctxNode_pt_tag (e : ENode) :
    ∀ anc p pt, pt.1 = e.tagName →
      ∀ c ∈ ctxNode anc p pt e, c.pt.1 = c.node.tagName := by
  cases e with
  | mk t c0 sh ch kids =>
    intro anc p pt hpt c hc
    simp only [ctxNode] at hc
    rcases List.mem_cons.mp hc with h | h
    · subst h
      simpa [ENode.tagName] using hpt
    · exact ctxKids_pt_tag kids (pt :: anc) p [] c h

theorem ctxKids_pt_tag (ks : List ENode) :
    ∀ anc p before, ∀ c ∈ ctxKids anc p before ks, c.pt.1 = c.node.tagName := by
  cases ks with
  | nil => intro anc p before c hc; simp [ctxKids] at hc
  | cons k ks =>
    intro anc p before c hc
    simp only [ctxKids] at hc
    rcases List.mem_append.mp hc with h | h
    · exact ctxNode_pt_tag k anc (p ++ [before.length]) _ rfl c h
    · exact ctxKids_pt_tag ks anc p (before ++ [k]) c h
end

theorem docCtx_pt_tag (d : ENode) : ∀ c ∈ docCtx d, c.pt.1 = c.node.tagName :=
  ctxNode_pt_tag d [] [] (d.tagName, 1) rfl

/-- A single-tag selector matches exactly the elements with that tag. -/
theorem qsaCtx_single_tag (d : ENode) (t : String) :
    qsaCtx d [[Tok.tag t]] = (docCtx d).filter fun c => c.node.tagName == t := by
  unfold qsaCtx
  apply List.filter_congr
  intro c hc
  have := docCtx_pt_tag d c hc
  simp [segToCSel, segToCSelGo, segFinish, matchesCSel, matchesCompound, this]

/-- The content documents hanging off the iframe elements of a document,
located, in document order: the structural reading of one frame-descent
step on the selector `iframe`. -/
def frameDocs (ld : LDoc) : List LDoc :=
  ((docCtx ld.2).filter fun c => c.node.tagName == "iframe").filterMap fun c =>
    c.node.content.map fun cd => (c.path :: ld.1, cd)

theorem splitDocs_tag (docs : List LDoc) :
    splitDocs docs [Tok.tag "iframe"] = docs.flatMap frameDocs := by
  unfold splitDocs frameDocs
  apply List.flatMap_congr
  intro ld _
  rw [qsaCtx_single_tag]

/-- The div elements of one located document, in document order. -/
def divElems (ld : LDoc) : List GRef :=
  ((docCtx ld.2).filter fun c => c.node.tagName == "div").map fun c =>
    (ld.1, c.path)

/-- The claim's comparison value: all divs of the documents lying exactly
two iframe levels below the main document, in engine traversal order. -/
def divsAtDepth2 (root : ENode) : List GRef :=
  ((frameDocs ([], root)).flatMap frameDocs).flatMap divElems

theorem qsaPaths_single_tag (d : ENode) (t : String) :
    qsaPaths d [[Tok.tag t]]
      = (((docCtx d).filter fun c => c.node.tagName == t).map Ctx.path) := by
  unfold qsaPaths
  rw [qsaCtx_single_tag]

/-! ## Flat-mode visitation order and reachable documents -/

theorem subdocRefs_eq_frameDocs (ld : LDoc) : subdocRefs ld = frameDocs ld := by
  unfold subdocRefs
  rw [splitDocs_tag]
  simp

theorem wsum_mem_le {x : LDoc} {l : List LDoc} (h : x ∈ l) :
    esize x.2 ≤ wsum l := by
  induction l with
  | nil => cases h
  | cons y ys ih =>
    rcases List.mem_cons.mp h with h | h
    · subst h; simp only [wsum, List.map_cons, esizeL]; omega
    · have := ih h
      simp only [wsum, List.map_cons, esizeL] at *
      omega

theorem subdoc_mem_size_lt {x ld : LDoc} (h : x ∈ subdocRefs ld) :
    esize x.2 < esize ld.2 := by
  have h1 := wsum_mem_le h
  have h2 := splitDocs_single_weight_lt ld [Tok.tag "iframe"]
  unfold subdocRefs at h1
  omega

theorem frameDocs_mem_size_lt {x ld : LDoc} (h : x ∈ frameDocs ld) :
    esize x.2 < esize ld.2 :=
  subdoc_mem_size_lt (by rw [subdocRefs_eq_frameDocs]; exact h)

mutual
/-- The order in which the flat-mode worklist visits documents: the popped
document first, then (because the worklist is a stack) the subtrees of
its child documents in reverse document order. -/
def visitDocs (ld : LDoc) : List LDoc :=
  ld :: visitList (subdocRefs ld).reverse
termination_by 2 * esize ld.2
decreasing_by
  rw [wsum_reverse]
  have h2 : wsum (subdocRefs ld) < esize ld.2 :=
    splitDocs_single_weight_lt ld [Tok.tag "iframe"]
  omega

/-- Visitation order of a list of sibling documents. -/
def visitList : List LDoc → List LDoc
  | [] => []
  | x :: xs => visitDocs x ++ visitList xs
termination_by l => 2 * wsum l + 1
decreasing_by
  · simp only [wsum, List.map_cons, esizeL]
    omega
  · have := esize_pos ld.2
    simp only [wsum, List.map_cons, esizeL]
    omega
end

mutual
/-- The documents reachable from a document by following iframe content
documents, in document order (the document itself first, then the
subtrees of its child documents left to right). -/
def reachDocs (ld : LDoc) : List LDoc :=
  ld :: reachList (frameDocs ld)
termination_by 2 * esize ld.2
decreasing_by
  have h2 : wsum (frameDocs ld) < esize ld.2 := by
    rw [← subdocRefs_eq_frameDocs]
    exact splitDocs_single_weight_lt ld [Tok.tag "iframe"]
  omega

/-- Reachable documents of a list of sibling documents. -/
def reachList : List LDoc → List LDoc
  | [] => []
  | x :: xs => reachDocs x ++ reachList xs
termination_by l => 2 * wsum l + 1
decreasing_by
  · simp only [wsum, List.map_cons, esizeL]
    omega
  · have := esize_pos ld.2
    simp only [wsum, List.map_cons, esizeL]
    omega
end

theorem visitList_eq_flatMap (l : List LDoc) :
    visitList l = l.flatMap visitDocs := by
  induction l with
  | nil => rw [visitList]; rfl
  | cons x xs ih =>
    rw [visitList]
    simp [ih]

theorem reachList_eq_flatMap (l : List LDoc) :
    reachList l = l.flatMap reachDocs := by
  induction l with
  | nil => rw [reachList]; rfl
  | cons x xs ih =>
    rw [reachList]
    simp [ih]

/-- The worklist visitation order is a permutation of the reachable
documents: every reachable document is visited, exactly as often as it
occurs among the reachable documents (in a frame tree: exactly once). -/
theorem visitDocs_perm (ld : LDoc) : (visitDocs ld).Perm (reachDocs ld) := by
  have H : ∀ n ld, esize ld.2 ≤ n → (visitDocs ld).Perm (reachDocs ld) := by
    intro n
    induction n with
    | zero => intro ld h; have := esize_pos ld.2; omega
    | succ n ih =>
      intro ld h
      rw [visitDocs, reachDocs]
      refine List.Perm.cons ld ?_
      rw [visitList_eq_flatMap, reachList_eq_flatMap, ← subdocRefs_eq_frameDocs]
      have h1 : ((subdocRefs ld).reverse.flatMap visitDocs).Perm
          ((subdocRefs ld).reverse.flatMap reachDocs) :=
        List.Perm.flatMap_left _ (fun x hx => by
          have hx' : x ∈ subdocRefs ld := List.mem_reverse.mp hx
          have := subdoc_mem_size_lt hx'
          exact ih x (by omega))
      have h2 : ((subdocRefs ld).reverse.flatMap reachDocs).Perm
          ((subdocRefs ld).flatMap reachDocs) :=
        List.Perm.flatMap_right _ (List.reverse_perm _)
      exact h1.trans h2
  exact H (esize ld.2) ld le_rfl

/-- The flat-mode worklist computes, for each stacked document, the
per-document results over its visitation order. -/
theorem flatAllLoop_eq (sel : Selector) : ∀ stack, flatAllLoop sel stack
    = stack.flatMap fun ld => (visitDocs ld).flatMap fun d => fqAll d sel := by
  have H : ∀ n stack, wsum stack ≤ n → flatAllLoop sel stack
      = stack.flatMap fun ld => (visitDocs ld).flatMap fun d => fqAll d sel := by
    intro n
    induction n with
    | zero =>
      intro stack hs
      cases stack with
      | nil => simp [flatAllLoop]
      | cons ld rest =>
        have := esize_pos ld.2
        simp only [wsum, List.map_cons, esizeL] at hs
        omega
    | succ n ih =>
      intro stack hs
      cases stack with
      | nil => simp [flatAllLoop]
      | cons ld rest =>
        have hdec : wsum ((subdocRefs ld).reverse ++ rest) ≤ n := by
          rw [wsum_append, wsum_reverse]
          have h2 : wsum (subdocRefs ld) < esize ld.2 :=
            splitDocs_single_weight_lt ld [Tok.tag "iframe"]
          simp only [wsum, List.map_cons, esizeL] at hs
          simp only [wsum] at h2
          simp only [wsum]
          omega
        rw [flatAllLoop]
        rw [ih _ hdec]
        simp only [List.flatMap_cons, List.flatMap_append]
        rw [show visitDocs ld = ld :: visitList (subdocRefs ld).reverse from by
          rw [visitDocs]]
        simp only [List.flatMap_cons, visitList_eq_flatMap, List.flatMap_assoc]
        simp [List.append_assoc]
  intro stack
  exact H (wsum stack) stack le_rfl

/-- Does the frame-qualified scanning loop pass over this token list
without ever descending (no `iframe` tag followed by a child/descendant
combinator, in the loop's own accounting)? -/
def splitFree (flag : Bool) : List Tok → Bool
  | [] => true
  | [_] => true
  | t :: ts =>
    let flag1 := flag || (match t with | .tag n => n == "iframe" | _ => false)
    if flag1 && t.isTraversal then false
    else splitFree (flag1 && !t.isTraversal) ts

theorem fqLoop_splitFree : ∀ (toks : List Tok) (docs : List LDoc)
    (flag : Bool) (pending : List Tok), splitFree flag toks = true →
    fqLoop docs flag pending toks = (docs, pending ++ toks) := by
  intro toks
  induction toks with
  | nil => intro docs flag pending _; simp [fqLoop]
  | cons t ts ih =>
    intro docs flag pending h
    cases ts with
    | nil => simp [fqLoop]
    | cons t2 ts2 =>
      simp only [splitFree] at h
      simp only [fqLoop]
      split
      · next hcond =>
          rw [if_pos hcond] at h
          cases h
      · next hcond =>
          rw [if_neg hcond] at h
          rw [ih _ _ _ h]
          simp

/-- On a split-free segment, frame-qualified evaluation is exactly the
native per-document `querySelectorAll`. -/
theorem fqAll_splitFree (ld : LDoc) (seg : List Tok)
    (h : splitFree false seg = true) :
    fqAll ld [seg] = (qsaPaths ld.2 [seg]).map fun p => (ld.1, p) := by
  unfold fqAll fqAllSeg
  simp only [List.flatMap_cons, List.flatMap_nil, List.append_nil]
  rw [fqLoop_splitFree seg [ld] false [] h]
  simp

/-! ## Selector path derivation (`getGlobalSelector`, lines 241-269)

The derivation walks upward from the element, emitting per level the tag
name qualified by `:nth-of-type(k)` when same-tag siblings exist, until
the accumulated `>`-joined path first-matches the element; if the owning
document is an iframe's content document, the enclosing iframe's own
global selector is derived recursively and prefixed space-joined. -/

/-- The per-level segment for the child at index `i` of `parent`: the
child's tag, plus `:nth-of-type(k)` when same-tag siblings exist.  The
source computes `k` as `siblings.indexOf(current) + 1` with identity
comparison, i.e. one plus the number of same-tag siblings before `i`. -/
def segFor (parent : ENode) (i : Nat) : List Tok :=
  match parent.kids[i]? with
  | none => []
  | some cur =>
    if (parent.kids.filter fun b => b.tagName == cur.tagName).length > 1 then
      [Tok.tag cur.tagName,
       Tok.nth (1 + ((parent.kids.take i).filter
         fun b => b.tagName == cur.tagName).length)]
    else [Tok.tag cur.tagName]

/-- The segment for the element at path `q` of a document.  The document
root has no parent element, so `parent?.children ?? []` makes its
sibling list empty and the segment is the bare tag. -/
def segAt (doc : ENode) (q : EPath) : List Tok :=
  match q.getLast? with
  | none => [Tok.tag doc.tagName]
  | some i => match elemAt doc q.dropLast with
    | some parent => segFor parent i
    | none => []

/-- The segments of the chain positions with prefix lengths `j..p.length`
(the part of the upward walk emitted so far, topmost first). -/
def segsFrom (doc : ENode) (p : EPath) (j : Nat) : List (List Tok) :=
  (List.range (p.length + 1 - j)).map fun r => segAt doc (p.take (j + r))

/-- `" > "`-joining of the per-level segments (line 263). -/
def joinSegs : List (List Tok) → List Tok
  | [] => []
  | [s] => s
  | s :: rest => s ++ Tok.child :: joinSegs rest

/-- The upward do-while loop (lines 247-263): after emitting the segment
for prefix length `j`, stop as soon as the joined path's first match is
the element itself; at `j = 0` the full path from the document root is
returned (its first match provably *is* the element, which is why the
source loop never walks past the root and crashes). -/
def gsFind (doc : ENode) (p : EPath) : Nat → List (List Tok)
  | 0 => segsFrom doc p 0
  | j + 1 =>
    if qsHead doc [joinSegs (segsFrom doc p (j + 1))] = some p
    then segsFrom doc p (j + 1)
    else gsFind doc p j

/-- The in-document selector path of the element at `p`. -/
def localToks (doc : ENode) (p : EPath) : List Tok :=
  joinSegs (gsFind doc p p.length)

/-- `getGlobalSelector` for the element at `(d, p)`: the in-document
path, prefixed (space-joined) with the enclosing iframe's own global
selector when the owning document is an iframe's content document
(lines 265-268). -/
def getGlobalSelector (root : ENode) : DocRef → EPath → List Tok
  | [], p => localToks root p
  | fp :: ds, p =>
    match docNodeAt root (fp :: ds) with
    | some dn => getGlobalSelector root ds fp ++ Tok.descendant :: localToks dn p
    | none => []

/-! ## Path-indexed match contexts

`docCtx` enumerates contexts in document order; these functions compute
the same tag/position/ancestor data directly from an element path, and
the lemmas below show the two views agree (soundness/completeness of the
enumeration). -/

/-- Tag/position data of a child node given its earlier siblings. -/
def childPt (before : List ENode) (k : ENode) : PosTag :=
  (k.tagName, 1 + (before.filter fun b => b.tagName == k.tagName).length)

/-- Tag/position data of the element at a path (`pt0` is the data of the
subtree root). -/
def ptAt (e : ENode) (pt0 : PosTag) : EPath → Option PosTag
  | [] => some pt0
  | i :: q => match e.kids[i]? with
    | some k => ptAt k (childPt (e.kids.take i) k) q
    | none => none

/-- Ancestor tag/position chain (nearest first) of the element at a path,
relative to the subtree root (whose own data is `pt0`). -/
def ancAt (e : ENode) (pt0 : PosTag) : EPath → Option (List PosTag)
  | [] => some []
  | i :: q => match e.kids[i]? with
    | some k => (ancAt k (childPt (e.kids.take i) k) q).map fun l => l ++ [pt0]
    | none => none

mutual
theorem ctxNode_sound (e : ENode) : ∀ anc0 p0 pt0 c, c ∈ ctxNode anc0 p0 pt0 e →
    ∃ q, c.path = p0 ++ q ∧ elemAt e q = some c.node ∧
      ptAt e pt0 q = some c.pt ∧
      ∃ l, ancAt e pt0 q = some l ∧ c.anc = l ++ anc0 := by
  cases e with
  | mk t c0 sh ch kids =>
    intro anc0 p0 pt0 c hc
    simp only [ctxNode] at hc
    rcases List.mem_cons.mp hc with h | h
    · subst h
      exact ⟨[], by simp [elemAt, ptAt, ancAt]⟩
    · rcases ctxKids_sound kids (pt0 :: anc0) p0 [] c h with
        ⟨j, q, k, hk, hpath, helem, hpt, l, hanc, hancEq⟩
      refine ⟨j :: q, ?_, ?_, ?_, l ++ [pt0], ?_, ?_⟩
      · simpa using hpath
      · simp only [elemAt, ENode.kids, hk]
        exact helem
      · simp only [ptAt, ENode.kids, hk]
        simpa using hpt
      · simp only [ancAt, ENode.kids, hk]
        simp only [List.take_nil, List.nil_append] at hanc
        rw [hanc]
        rfl
      · rw [hancEq]
        simp

theorem ctxKids_sound (ks : List ENode) : ∀ anc0 p0 before c,
    c ∈ ctxKids anc0 p0 before ks →
    ∃ j q k, ks[j]? = some k ∧
      c.path = p0 ++ (before.length + j) :: q ∧ elemAt k q = some c.node ∧
      ptAt k (childPt (before ++ ks.take j) k) q = some c.pt ∧
      ∃ l, ancAt k (childPt (before ++ ks.take j) k) q = some l ∧
        c.anc = l ++ anc0 := by
  cases ks with
  | nil => intro anc0 p0 before c hc; simp [ctxKids] at hc
  | cons k0 ks' =>
    intro anc0 p0 before c hc
    simp only [ctxKids] at hc
    rcases List.mem_append.mp hc with h | h
    · rcases ctxNode_sound k0 anc0 (p0 ++ [before.length]) (childPt before k0) c h with
        ⟨q, hpath, helem, hpt, l, hanc, hancEq⟩
      refine ⟨0, q, k0, by simp, ?_, helem, ?_, l, ?_, hancEq⟩
      · rw [hpath]
        simp
      · simpa using hpt
      · simpa using hanc
    · rcases ctxKids_sound ks' anc0 p0 (before ++ [k0]) c h with
        ⟨j, q, k, hk, hpath, helem, hpt, l, hanc, hancEq⟩
      refine ⟨j + 1, q, k, by simpa using hk, ?_, helem, ?_, l, ?_, hancEq⟩
      · rw [hpath]
        have hl : (before ++ [k0]).length + j = before.length + (j + 1) := by
          simp only [List.length_append, List.length_cons, List.length_nil]
          omega
        rw [hl]
      · rw [show before ++ [k0] ++ ks'.take j = before ++ (k0 :: ks').take (j + 1) from by simp] at hpt
        exact hpt
      · rw [show before ++ [k0] ++ ks'.take j = before ++ (k0 :: ks').take (j + 1) from by simp] at hanc
        exact hanc
end

mutual
theorem ctxNode_complete (e : ENode) : ∀ q n, elemAt e q = some n →
    ∀ anc0 p0 pt0, ∃ pt l, ptAt e pt0 q = some pt ∧ ancAt e pt0 q = some l ∧
      (Ctx.mk (p0 ++ q) (l ++ anc0) pt n) ∈ ctxNode anc0 p0 pt0 e := by
  cases e with
  | mk t c0 sh ch kids =>
    intro q n hq anc0 p0 pt0
    cases q with
    | nil =>
      simp only [elemAt, Option.some_inj] at hq
      subst hq
      refine ⟨pt0, [], rfl, rfl, ?_⟩
      simp [ctxNode]
    | cons i q' =>
      simp only [elemAt, ENode.kids] at hq
      rcases hik : kids[i]? with _ | k
      · rw [hik] at hq; cases hq
      · rw [hik] at hq
        rcases ctxKids_complete kids i k q' n hik hq (pt0 :: anc0) p0 [] with
          ⟨pt, l, hpt, hanc, hmem⟩
        refine ⟨pt, l ++ [pt0], ?_, ?_, ?_⟩
        · simp only [ptAt, ENode.kids, hik]
          simpa using hpt
        · simp only [ancAt, ENode.kids, hik]
          simp only [List.take_nil, List.nil_append] at hanc
          rw [hanc]
          rfl
        · simp only [ctxNode]
          apply List.mem_cons_of_mem
          have : p0 ++ i :: q' = p0 ++ (([] : List ENode).length + i) :: q' := by simp
          rw [this, show (l ++ [pt0]) ++ anc0 = l ++ (pt0 :: anc0) from by simp]
          exact hmem

theorem ctxKids_complete (ks : List ENode) : ∀ j k q n, ks[j]? = some k →
    elemAt k q = some n → ∀ anc0 p0 before,
    ∃ pt l, ptAt k (childPt (before ++ ks.take j) k) q = some pt ∧
      ancAt k (childPt (before ++ ks.take j) k) q = some l ∧
      (Ctx.mk (p0 ++ (before.length + j) :: q) (l ++ anc0) pt n)
        ∈ ctxKids anc0 p0 before ks := by
  cases ks with
  | nil => intro j k q n hk; simp at hk
  | cons k0 ks' =>
    intro j k q n hk hq anc0 p0 before
    cases j with
    | zero =>
      simp only [List.getElem?_cons_zero, Option.some_inj] at hk
      subst hk
      rcases ctxNode_complete k0 q n hq anc0 (p0 ++ [before.length]) (childPt before k0) with
        ⟨pt, l, hpt, hanc, hmem⟩
      refine ⟨pt, l, by simpa using hpt, by simpa using hanc, ?_⟩
      simp only [ctxKids]
      apply List.mem_append_left
      simpa using hmem
    | succ j' =>
      simp only [List.getElem?_cons_succ] at hk
      rcases ctxKids_complete ks' j' k q n hk hq anc0 p0 (before ++ [k0]) with
        ⟨pt, l, hpt, hanc, hmem⟩
      refine ⟨pt, l, ?_, ?_, ?_⟩
      · rw [show before ++ (k0 :: ks').take (j' + 1) = before ++ [k0] ++ ks'.take j' from by simp]
        exact hpt
      · rw [show before ++ (k0 :: ks').take (j' + 1) = before ++ [k0] ++ ks'.take j' from by simp]
        exact hanc
      · simp only [ctxKids]
        apply List.mem_append_right
        rw [show before.length + (j' + 1) = (before ++ [k0]).length + j' from by simp; omega]
        exact hmem
end

/-- Path-level matching of a structured selector within a document. -/
def pmatches (doc : ENode) (csel : CSel) (q : EPath) : Prop :=
  ∃ pt l, ptAt doc (doc.tagName, 1) q = some pt ∧
    ancAt doc (doc.tagName, 1) q = some l ∧ matchesCSel csel l pt = true

theorem head?_of_all_eq {α} {l : List α} {p : α} (hne : l ≠ [])
    (hall : ∀ x ∈ l, x = p) : l.head? = some p := by
  cases l with
  | nil => cases hne rfl
  | cons a t => simp [hall a (by simp)]

/-- When an element matches a selector and is the only matching element,
`querySelector` returns it. -/
theorem qsHead_unique (doc : ENode) (seg : List Tok) (p : EPath)
    (hpv : (elemAt doc p).isSome)
    (hpm : pmatches doc (segToCSel seg) p)
    (huniq : ∀ q, (elemAt doc q).isSome → pmatches doc (segToCSel seg) q → q = p) :
    qsHead doc [seg] = some p := by
  unfold qsHead qsaPaths qsaCtx
  have hfilter : ((docCtx doc).filter fun c =>
        [seg].any fun s => matchesCSel (segToCSel s) c.anc c.pt)
      = (docCtx doc).filter fun c => matchesCSel (segToCSel seg) c.anc c.pt := by
    apply List.filter_congr
    intro c _
    simp
  rw [hfilter]
  apply head?_of_all_eq
  · rcases Option.isSome_iff_exists.mp hpv with ⟨n, hn⟩
    rcases hpm with ⟨pt, l, hpt, hanc, hm⟩
    rcases ctxNode_complete doc p n hn [] [] (doc.tagName, 1) with
      ⟨pt', l', hpt', hanc', hmem⟩
    rw [hpt] at hpt'
    rw [hanc] at hanc'
    cases hpt'
    cases hanc'
    have hin : (Ctx.mk ([] ++ p) (l ++ []) pt n) ∈ (docCtx doc).filter
        fun c => matchesCSel (segToCSel seg) c.anc c.pt := by
      rw [List.mem_filter]
      refine ⟨hmem, by simpa using hm⟩
    exact List.ne_nil_of_mem (List.mem_map_of_mem Ctx.path hin)
  · intro x hx
    rcases List.mem_map.mp hx with ⟨c, hcf, hcp⟩
    rcases List.mem_filter.mp hcf with ⟨hcd, hcm⟩
    rcases ctxNode_sound doc [] [] (doc.tagName, 1) c hcd with
      ⟨q, hpath, helem, hpt, l, hanc, hancEq⟩
    have hq : q = p := by
      apply huniq
      · rw [helem]; rfl
      · refine ⟨c.pt, l, hpt, hanc, ?_⟩
        rw [show l = c.anc from by rw [hancEq]; simp]
        exact hcm
    rw [← hcp, hpath, hq]
    simp

theorem elemAt_append (doc : ENode) : ∀ (P Q : EPath),
    elemAt doc (P ++ Q) = (elemAt doc P).bind fun m => elemAt m Q := by
  intro P
  induction P generalizing doc with
  | nil => intro Q; simp [elemAt]
  | cons i P' ih =>
    intro Q
    simp only [List.cons_append, elemAt]
    cases doc.kids[i]? with
    | none => simp
    | some k => simpa using ih k Q

theorem ptAt_snoc (doc : ENode) : ∀ (P : EPath) (i : Nat) (pt0 : PosTag)
    (par k : ENode), elemAt doc P = some par → par.kids[i]? = some k →
    ptAt doc pt0 (P ++ [i]) = some (childPt (par.kids.take i) k) := by
  intro P
  induction P generalizing doc with
  | nil =>
    intro i pt0 par k hP hk
    simp only [elemAt, Option.some_inj] at hP
    subst hP
    simp [ptAt, hk]
  | cons i0 P' ih =>
    intro i pt0 par k hP hk
    simp only [elemAt] at hP
    rcases h0 : doc.kids[i0]? with _ | k0
    · rw [h0] at hP; cases hP
    · rw [h0] at hP
      simp only [List.cons_append, ptAt, h0]
      exact ih k0 i _ par k hP hk

theorem ancAt_snoc (doc : ENode) : ∀ (P : EPath) (i : Nat) (pt0 : PosTag)
    (par k : ENode), elemAt doc P = some par → par.kids[i]? = some k →
    ∃ ptP lP, ptAt doc pt0 P = some ptP ∧ ancAt doc pt0 P = some lP ∧
      ancAt doc pt0 (P ++ [i]) = some (ptP :: lP) := by
  intro P
  induction P generalizing doc with
  | nil =>
    intro i pt0 par k hP hk
    simp only [elemAt, Option.some_inj] at hP
    subst hP
    exact ⟨pt0, [], rfl, rfl, by simp [ancAt, hk]⟩
  | cons i0 P' ih =>
    intro i pt0 par k hP hk
    simp only [elemAt] at hP
    rcases h0 : doc.kids[i0]? with _ | k0
    · rw [h0] at hP; cases hP
    · rw [h0] at hP
      rcases ih k0 i (childPt (doc.kids.take i0) k0) par k hP hk with
        ⟨ptP, lP, h1, h2, h3⟩
      refine ⟨ptP, lP ++ [pt0], ?_, ?_, ?_⟩
      · simp only [ptAt, h0]
        exact h1
      · simp only [ancAt, h0, h2]
        rfl
      · simp only [List.cons_append, ancAt, h0, List.append_eq, h3]
        rfl

theorem ptAt_tag (e : ENode) : ∀ (pt0 : PosTag) (q : EPath) (n : ENode)
    (pt : PosTag), pt0.1 = e.tagName → elemAt e q = some n →
    ptAt e pt0 q = some pt → pt.1 = n.tagName := by
  intro pt0 q
  induction q generalizing e pt0 with
  | nil =>
    intro n pt h0 hn hpt
    simp only [elemAt, Option.some_inj] at hn
    simp only [ptAt, Option.some_inj] at hpt
    subst hn; subst hpt
    exact h0
  | cons i q' ih =>
    intro n pt h0 hn hpt
    simp only [elemAt, ptAt] at hn hpt
    rcases hk : e.kids[i]? with _ | k
    · rw [hk] at hn; cases hn
    · rw [hk] at hn hpt
      exact ih k (childPt (e.kids.take i) k) n pt rfl hn hpt

/-! ## Parsing of `>`-joined compound chains -/

/-- Left fold of compounds onto a structured selector with child
combinators. -/
def chainCSel (acc : CSel) : List (List Tok) → CSel
  | [] => acc
  | s :: rest => chainCSel (.comb acc .chld s) rest

theorem chainCSel_snoc (segs : List (List Tok)) : ∀ (acc : CSel) (s : List Tok),
    chainCSel acc (segs ++ [s]) = .comb (chainCSel acc segs) .chld s := by
  induction segs with
  | nil => intro acc s; rfl
  | cons s1 rest ih =>
    intro acc s
    simp only [List.cons_append, chainCSel]
    exact ih _ s

theorem segToCSelGo_compound : ∀ (s : List Tok), (∀ t ∈ s, t.isTraversal = false) →
    ∀ acc cur ts, segToCSelGo acc cur (s ++ ts) = segToCSelGo acc (cur ++ s) ts := by
  intro s
  induction s with
  | nil => intro _ acc cur ts; simp
  | cons t s' ih =>
    intro hs acc cur ts
    have ht : t.isTraversal = false := hs t (by simp)
    have hs' : ∀ x ∈ s', x.isTraversal = false := fun x hx => hs x (by simp [hx])
    cases t with
    | descendant => simp [Tok.isTraversal] at ht
    | child => simp [Tok.isTraversal] at ht
    | tag nm =>
      simp only [List.cons_append, segToCSelGo, List.append_eq]
      rw [ih hs' acc (cur ++ [Tok.tag nm]) ts]
      simp
    | univ =>
      simp only [List.cons_append, segToCSelGo, List.append_eq]
      rw [ih hs' acc (cur ++ [Tok.univ]) ts]
      simp
    | nth k =>
      simp only [List.cons_append, segToCSelGo, List.append_eq]
      rw [ih hs' acc (cur ++ [Tok.nth k]) ts]
      simp

theorem segToCSelGo_joinSegs : ∀ (segs : List (List Tok)) (s0 : List Tok)
    (acc : Option (CSel × Comb)) (cur : List Tok),
    (∀ s ∈ s0 :: segs, ∀ t ∈ s, t.isTraversal = false) →
    segToCSelGo acc cur (joinSegs (s0 :: segs))
      = chainCSel (segFinish acc (cur ++ s0)) segs := by
  intro segs
  induction segs with
  | nil =>
    intro s0 acc cur h
    have h2 := segToCSelGo_compound s0 (h s0 (by simp)) acc cur []
    simp only [List.append_nil] at h2
    rw [show joinSegs [s0] = s0 from rfl, h2]
    rfl
  | cons s1 rest ih =>
    intro s0 acc cur h
    rw [show joinSegs (s0 :: s1 :: rest) = s0 ++ Tok.child :: joinSegs (s1 :: rest)
      from rfl]
    rw [segToCSelGo_compound s0 (h s0 (by simp)) acc cur _]
    rw [show segToCSelGo acc (cur ++ s0) (Tok.child :: joinSegs (s1 :: rest))
        = segToCSelGo (some (segFinish acc (cur ++ s0), Comb.chld)) []
            (joinSegs (s1 :: rest)) from rfl]
    rw [ih s1 _ [] (fun s hs => h s (by
      rcases List.mem_cons.mp hs with h1 | h1
      · simp [h1]
      · simp [h1]))]
    rfl

theorem segToCSel_joinSegs (s0 : List Tok) (segs : List (List Tok))
    (h : ∀ s ∈ s0 :: segs, ∀ t ∈ s, t.isTraversal = false) :
    segToCSel (joinSegs (s0 :: segs)) = chainCSel (.base s0) segs := by
  unfold segToCSel
  rw [segToCSelGo_joinSegs segs s0 none [] h]
  rfl

/-! ## Shape of the derived path segments -/

theorem segAt_noTraversal (doc : ENode) (q : EPath) :
    ∀ t ∈ segAt doc q, t.isTraversal = false := by
  intro t ht
  unfold segAt segFor at ht
  split at ht
  · simp only [List.mem_singleton] at ht
    simp [ht, Tok.isTraversal]
  · split at ht
    · split at ht
      · simp at ht
      · split at ht
        · rcases List.mem_cons.mp ht with h1 | h1
          · simp [h1, Tok.isTraversal]
          · simp only [List.mem_singleton] at h1
            simp [h1, Tok.isTraversal]
        · simp only [List.mem_singleton] at ht
          simp [ht, Tok.isTraversal]
    · simp at ht

theorem segsFrom_zero_nil (doc : ENode) : segsFrom doc [] 0 = [segAt doc []] := by
  simp [segsFrom]

theorem segsFrom_zero_snoc (doc : ENode) (q : EPath) (i : Nat) :
    segsFrom doc (q ++ [i]) 0 = segsFrom doc q 0 ++ [segAt doc (q ++ [i])] := by
  unfold segsFrom
  simp only [List.length_append, List.length_cons, List.length_nil, Nat.sub_zero,
    Nat.zero_add]
  rw [show q.length + (0 + 1) + 1 = (q.length + 1) + 1 from by omega]
  rw [List.range_succ, List.map_append]
  congr 1
  · apply List.map_congr_left
    intro r hr
    have hrle : r ≤ q.length := by
      simp [List.mem_range] at hr
      omega
    congr 1
    exact List.take_append_of_le_length hrle
  · simp only [List.map_cons, List.map_nil]
    congr 2
    have : (q ++ [i]).length = q.length + 1 := by simp
    rw [← this]
    exact List.take_length _

theorem segsFrom_zero_ne_nil (doc : ENode) (p : EPath) : segsFrom doc p 0 ≠ [] := by
  unfold segsFrom
  simp

theorem segsFrom_zero_mem_noTraversal (doc : ENode) (p : EPath) :
    ∀ s ∈ segsFrom doc p 0, ∀ t ∈ s, t.isTraversal = false := by
  intro s hs
  unfold segsFrom at hs
  rcases List.mem_map.mp hs with ⟨r, _, hr⟩
  rw [← hr]
  exact segAt_noTraversal doc _

/-! ## Sibling disambiguation -/

theorem countTake_mono (kids : List ENode) (f : ENode → Bool) {i j : Nat}
    (hij : i ≤ j) :
    ((kids.take i).filter f).length ≤ ((kids.take j).filter f).length :=
  (List.IsPrefix.filter f (List.take_prefix_take_left kids hij)).length_le

theorem countTake_succ (kids : List ENode) (f : ENode → Bool) (i : Nat) (a : ENode)
    (ha : kids[i]? = some a) (hf : f a = true) :
    ((kids.take (i + 1)).filter f).length = ((kids.take i).filter f).length + 1 := by
  rw [List.take_succ, ha]
  simp [List.filter_append, hf]

theorem count_whole_ge (kids : List ENode) (f : ENode → Bool) (j : Nat) :
    ((kids.take j).filter f).length ≤ (kids.filter f).length := by
  have := countTake_mono kids f (Nat.le_refl kids.length)
  have h2 : kids.take kids.length = kids := List.take_length kids
  calc ((kids.take j).filter f).length
      ≤ ((kids.take kids.length).filter f).length := by
        rcases Nat.lt_or_ge kids.length j with h | h
        · rw [List.take_of_length_le (by omega)]
          rw [h2]
        · exact countTake_mono kids f h
    _ = (kids.filter f).length := by rw [h2]

theorem childPt_snd_inj (kids : List ENode) (i j : Nat) (a b : ENode)
    (ha : kids[i]? = some a) (hb : kids[j]? = some b)
    (htag : a.tagName = b.tagName)
    (hpt : (childPt (kids.take i) a).2 = (childPt (kids.take j) b).2) : i = j := by
  unfold childPt at hpt
  simp only [htag] at hpt
  by_contra hne
  rcases Nat.lt_or_ge i j with h | h
  · have h1 := countTake_succ kids (fun x => x.tagName == b.tagName) i a ha
      (by simp [htag])
    have h2 := countTake_mono kids (fun x => x.tagName == b.tagName)
      (show i + 1 ≤ j from h)
    omega
  · have h' : j < i := by omega
    have h1 := countTake_succ kids (fun x => x.tagName == b.tagName) j b hb
      (by simp)
    have h2 := countTake_mono kids (fun x => x.tagName == b.tagName)
      (show j + 1 ≤ i from h')
    omega

theorem tag_count_le_one_inj (kids : List ENode) (i j : Nat) (a b : ENode)
    (ha : kids[i]? = some a) (hb : kids[j]? = some b)
    (htag : a.tagName = b.tagName)
    (hcnt : (kids.filter fun x => x.tagName == a.tagName).length ≤ 1) : i = j := by
  by_contra hne
  have key : ∀ (i' j' : Nat) (a' b' : ENode), i' < j' → kids[i']? = some a' →
      kids[j']? = some b' → a'.tagName = a.tagName → b'.tagName = a.tagName →
      False := by
    intro i' j' a' b' hij ha' hb' hta htb
    have h1 := countTake_succ kids (fun x => x.tagName == a.tagName) i' a' ha'
      (by simp [hta])
    have h2 := countTake_succ kids (fun x => x.tagName == a.tagName) j' b' hb'
      (by simp [htb])
    have h3 := countTake_mono kids (fun x => x.tagName == a.tagName)
      (show i' + 1 ≤ j' from hij)
    have h4 := count_whole_ge kids (fun x => x.tagName == a.tagName) (j' + 1)
    omega
  rcases Nat.lt_or_ge i j with h | h
  · exact key i j a b h ha hb rfl htag.symm
  · exact key j i b a (by omega) hb ha htag.symm rfl

/-! ## First-match property of the derived path -/

theorem ptAt_isSome (doc : ENode) : ∀ (q : EPath) (pt0 : PosTag),
    (elemAt doc q).isSome → (ptAt doc pt0 q).isSome := by
  intro q
  induction q generalizing doc with
  | nil => intro pt0 _; simp [ptAt]
  | cons i q' ih =>
    intro pt0 hq
    simp only [elemAt] at hq
    simp only [ptAt]
    rcases hk : doc.kids[i]? with _ | k
    · rw [hk] at hq; simp at hq
    · rw [hk] at hq
      exact ih k _ hq

theorem ancAt_isSome (doc : ENode) : ∀ (q : EPath) (pt0 : PosTag),
    (elemAt doc q).isSome → (ancAt doc pt0 q).isSome := by
  intro q
  induction q generalizing doc with
  | nil => intro pt0 _; simp [ancAt]
  | cons i q' ih =>
    intro pt0 hq
    simp only [elemAt] at hq
    simp only [ancAt]
    rcases hk : doc.kids[i]? with _ | k
    · rw [hk] at hq; simp at hq
    · rw [hk] at hq
      have := ih k (childPt (doc.kids.take i) k) hq
      rcases Option.isSome_iff_exists.mp this with ⟨l, hl⟩
      simp [hl]

theorem pmatches_iff_of {doc : ENode} {q : EPath} {pt : PosTag} {l : List PosTag}
    (hpt : ptAt doc (doc.tagName, 1) q = some pt)
    (hanc : ancAt doc (doc.tagName, 1) q = some l) (csel : CSel) :
    pmatches doc csel q ↔ matchesCSel csel l pt = true := by
  constructor
  · rintro ⟨pt', l', hpt', hanc', hm⟩
    rw [hpt] at hpt'
    rw [hanc] at hanc'
    cases hpt'
    cases hanc'
    exact hm
  · intro hm
    exact ⟨pt, l, hpt, hanc, hm⟩

/-- Does the document root's tag occur on no other element?  (True of
every well-formed HTML document: there is exactly one `html` element.) -/
def rootTagUnique (doc : ENode) : Bool :=
  (docCtx doc).all fun c => !(c.node.tagName == doc.tagName) || c.path.isEmpty

theorem rootTagUnique_spec {doc : ENode} (hr : rootTagUnique doc = true) :
    ∀ q n, elemAt doc q = some n → n.tagName = doc.tagName → q = [] := by
  intro q n hq htag
  rcases ctxNode_complete doc q n hq [] [] (doc.tagName, 1) with ⟨pt, l, _, _, hmem⟩
  unfold rootTagUnique at hr
  rw [List.all_eq_true] at hr
  have h2 := hr _ hmem
  simp only [Bool.or_eq_true, Bool.not_eq_true'] at h2
  rcases h2 with h | h
  · rw [htag] at h
    simp at h
  · simpa using h

/-- The structured form of the full root-to-element path. -/
def FullC (doc : ENode) (p : EPath) : CSel :=
  segToCSel (joinSegs (segsFrom doc p 0))

theorem FullC_nil (doc : ENode) : FullC doc [] = .base [Tok.tag doc.tagName] := by
  unfold FullC
  rw [segsFrom_zero_nil]
  rw [segToCSel_joinSegs _ [] (by
    intro s hs
    rcases List.mem_cons.mp hs with h | h
    · rw [h]; exact segAt_noTraversal doc []
    · cases h)]
  rfl

theorem FullC_snoc (doc : ENode) (P : EPath) (i : Nat) :
    FullC doc (P ++ [i]) = .comb (FullC doc P) .chld (segAt doc (P ++ [i])) := by
  unfold FullC
  rw [segsFrom_zero_snoc]
  rcases hsf : segsFrom doc P 0 with _ | ⟨s0, tail⟩
  · exact absurd hsf (segsFrom_zero_ne_nil doc P)
  · have hmem0 : ∀ s ∈ s0 :: tail, ∀ t ∈ s, t.isTraversal = false := by
      intro s hs
      apply segsFrom_zero_mem_noTraversal doc P
      rw [hsf]
      exact hs
    rw [show (s0 :: tail) ++ [segAt doc (P ++ [i])]
        = s0 :: (tail ++ [segAt doc (P ++ [i])]) from rfl]
    rw [segToCSel_joinSegs s0 _ (by
      intro s hs
      rcases List.mem_cons.mp hs with h | h
      · exact hmem0 s (by simp [h])
      · rcases List.mem_append.mp h with h2 | h2
        · exact hmem0 s (by simp [h2])
        · simp only [List.mem_singleton] at h2
          rw [h2]
          exact segAt_noTraversal doc _)]
    rw [chainCSel_snoc]
    rw [segToCSel_joinSegs s0 tail hmem0]

/-- The full root-to-element path with `nth-of-type` disambiguation
matches exactly the element it was derived from. -/
theorem fullC_iff (doc : ENode) (hroot : rootTagUnique doc = true) :
    ∀ p, (elemAt doc p).isSome → ∀ q, (elemAt doc q).isSome →
      (pmatches doc (FullC doc p) q ↔ q = p) := by
  intro p
  induction p using List.reverseRecOn with
  | nil =>
    intro _ q hq
    rw [FullC_nil]
    rcases Option.isSome_iff_exists.mp hq with ⟨n, hn⟩
    rcases Option.isSome_iff_exists.mp (ptAt_isSome doc q (doc.tagName, 1) hq) with
      ⟨pt, hpt⟩
    rcases Option.isSome_iff_exists.mp (ancAt_isSome doc q (doc.tagName, 1) hq) with
      ⟨l, hanc⟩
    rw [pmatches_iff_of hpt hanc]
    have htageq := ptAt_tag doc (doc.tagName, 1) q n pt rfl hn hpt
    constructor
    · intro hm
      simp only [matchesCSel, matchesCompound, List.all_cons, List.all_nil,
        Bool.and_true] at hm
      apply rootTagUnique_spec hroot q n hn
      rw [← htageq]
      simpa using hm
    · intro hqq
      subst hqq
      simp only [elemAt, Option.some_inj] at hn
      simp only [ptAt, Option.some_inj] at hpt
      subst hn
      subst hpt
      simp [matchesCSel, matchesCompound]
  | append_singleton P i ihP =>
    intro hpv q hqv
    have hPv : (elemAt doc P).isSome := by
      rw [elemAt_append] at hpv
      rcases h : elemAt doc P with _ | par
      · rw [h] at hpv; simp at hpv
      · simp
    rcases Option.isSome_iff_exists.mp hPv with ⟨par, hpar⟩
    have hki : ∃ nI, par.kids[i]? = some nI := by
      rw [elemAt_append, hpar] at hpv
      rcases hk : par.kids[i]? with _ | nI
      · exfalso
        simp [elemAt, hk] at hpv
      · exact ⟨nI, rfl⟩
    rcases hki with ⟨nI, hnI⟩
    rw [FullC_snoc]
    rcases List.eq_nil_or_concat' q with hq0 | ⟨Q, j, hq⟩
    · subst hq0
      rw [pmatches_iff_of (show ptAt doc (doc.tagName, 1) [] = some (doc.tagName, 1)
          from rfl) (show ancAt doc (doc.tagName, 1) [] = some [] from rfl)]
      constructor
      · intro hm
        simp [matchesCSel] at hm
      · intro he
        exact absurd he (by simp)
    · subst hq
      have hQv : (elemAt doc Q).isSome := by
        rw [elemAt_append] at hqv
        rcases h : elemAt doc Q with _ | parQ
        · rw [h] at hqv; simp at hqv
        · simp
      rcases Option.isSome_iff_exists.mp hQv with ⟨parQ, hparQ⟩
      have hkj : ∃ nJ, parQ.kids[j]? = some nJ := by
        rw [elemAt_append, hparQ] at hqv
        rcases hk : parQ.kids[j]? with _ | nJ
        · exfalso
          simp [elemAt, hk] at hqv
        · exact ⟨nJ, rfl⟩
      rcases hkj with ⟨nJ, hnJ⟩
      have hptq := ptAt_snoc doc Q j (doc.tagName, 1) parQ nJ hparQ hnJ
      rcases ancAt_snoc doc Q j (doc.tagName, 1) parQ nJ hparQ hnJ with
        ⟨ptQ, lQ, hptQ, hancQ, hancq⟩
      rw [pmatches_iff_of hptq hancq]
      simp only [matchesCSel, Bool.and_eq_true]
      have hQiff : matchesCSel (FullC doc P) lQ ptQ = true ↔ Q = P := by
        rw [← pmatches_iff_of hptQ hancQ]
        exact ihP hPv Q hQv
      have hsegeq : segAt doc (P ++ [i]) = segFor par i := by
        unfold segAt
        rw [List.getLast?_concat, List.dropLast_concat, hpar]
      have hsegFor : segFor par i
          = (if 1 < (par.kids.filter fun b => b.tagName == nI.tagName).length then
              [Tok.tag nI.tagName, Tok.nth (1 + ((par.kids.take i).filter
                fun b => b.tagName == nI.tagName).length)]
            else [Tok.tag nI.tagName]) := by
        unfold segFor
        rw [hnI]
      constructor
      · rintro ⟨hcomp, hQm⟩
        have hQP : Q = P := hQiff.mp hQm
        subst hQP
        have hpp : parQ = par := by
          rw [hpar] at hparQ
          exact (Option.some_inj.mp hparQ).symm
        subst hpp
        rw [hsegeq, hsegFor] at hcomp
        by_cases hc : 1 < (parQ.kids.filter fun b => b.tagName == nI.tagName).length
        · rw [if_pos hc] at hcomp
          simp only [matchesCompound, List.all_cons, List.all_nil, Bool.and_true,
            Bool.and_eq_true, beq_iff_eq] at hcomp
          have htag : nJ.tagName = nI.tagName := by
            have h1 := hcomp.1
            unfold childPt at h1
            simpa using h1
          have hsnd : (childPt (parQ.kids.take j) nJ).2
              = (childPt (parQ.kids.take i) nI).2 := by
            have h2 := hcomp.2
            simpa using h2
            -- the right-hand sides agree definitionally
          have := childPt_snd_inj parQ.kids j i nJ nI hnJ hnI htag hsnd
          rw [this]
        · rw [if_neg hc] at hcomp
          simp only [matchesCompound, List.all_cons, List.all_nil, Bool.and_true,
            beq_iff_eq] at hcomp
          have htag : nJ.tagName = nI.tagName := by
            unfold childPt at hcomp
            simpa using hcomp
          have hcnt : (parQ.kids.filter fun x => x.tagName == nJ.tagName).length ≤ 1 := by
            rw [htag]
            omega
          have := tag_count_le_one_inj parQ.kids j i nJ nI hnJ hnI htag hcnt
          rw [this]
      · intro heq
        have hQP : Q = P := by
          have := congrArg List.dropLast heq
          simpa [List.dropLast_concat] using this
        have hji : j = i := by
          have := congrArg List.getLast? heq
          simpa [List.getLast?_concat] using this
        subst hQP
        subst hji
        have hpp : parQ = par := by
          rw [hpar] at hparQ
          exact (Option.some_inj.mp hparQ).symm
        subst hpp
        have hnn : nJ = nI := by
          rw [hnI] at hnJ
          exact (Option.some_inj.mp hnJ).symm
        subst hnn
        refine ⟨?_, hQiff.mpr rfl⟩
        rw [hsegeq, hsegFor]
        by_cases hc : 1 < (parQ.kids.filter fun b => b.tagName == nJ.tagName).length
        · rw [if_pos hc]
          simp [matchesCompound, childPt]
        · rw [if_neg hc]
          simp [matchesCompound, childPt]

/-- The do-while of `getGlobalSelector` always ends with a selector whose
first match is the element itself: the exit condition checks exactly
that, and at the root the full disambiguated path first-matches the
element by `fullC_iff`. -/
theorem localToks_first (doc : ENode) (p : EPath)
    (hp : (elemAt doc p).isSome) (hroot : rootTagUnique doc = true) :
    qsHead doc [localToks doc p] = some p := by
  unfold localToks
  suffices H : ∀ j, qsHead doc [joinSegs (gsFind doc p j)] = some p from H p.length
  intro j
  induction j with
  | zero =>
    show qsHead doc [joinSegs (segsFrom doc p 0)] = some p
    apply qsHead_unique _ _ _ hp
    · exact (fullC_iff doc hroot p hp p hp).mpr rfl
    · intro q hq hm
      exact (fullC_iff doc hroot p hp q hq).mp hm
  | succ j ih =>
    simp only [gsFind]
    split
    · next hcond => exact hcond
    · next _ => exact ih

/-! ## Scanning the derived selector through the frame-qualified engine -/

/-- Does a compound contain the tag `iframe` (what keeps
`lastTagIsIframe` set while the scanner passes over it)? -/
def hasIframeTag (s : List Tok) : Bool :=
  s.any fun t => match t with | .tag n => n == "iframe" | _ => false

/-- No strict ancestor of the element at `p` (within its own document) is
an iframe element — i.e. the element is not iframe fallback content. -/
def noIframeAnc (doc : ENode) (p : EPath) : Bool :=
  (List.range p.length).all fun j => match elemAt doc (p.take j) with
    | some a => !(a.tagName == "iframe")
    | none => true

theorem fqLoop_compound (s : List Tok) (hs : ∀ t ∈ s, t.isTraversal = false) :
    ∀ docs flag pending ts, ts ≠ [] →
    fqLoop docs flag pending (s ++ ts)
      = fqLoop docs (flag || hasIframeTag s) (pending ++ s) ts := by
  induction s with
  | nil =>
    intro docs flag pending ts _
    simp [hasIframeTag]
  | cons t s' ih =>
    intro docs flag pending ts hts
    have hne : s' ++ ts ≠ [] := by
      intro hcon
      rcases List.append_eq_nil.mp hcon with ⟨_, h⟩
      exact hts h
    have ht : t.isTraversal = false := hs t (by simp)
    have hs' : ∀ x ∈ s', x.isTraversal = false := fun x hx => hs x (by simp [hx])
    rcases hex : s' ++ ts with _ | ⟨x, xs⟩
    · exact absurd hex hne
    · show fqLoop docs flag pending (t :: (s' ++ ts)) = _
      rw [hex]
      simp only [fqLoop, ht, Bool.and_false, Bool.not_false, Bool.and_true,
        Bool.false_eq_true, if_false]
      rw [← hex]
      rw [ih hs' docs _ (pending ++ [t]) ts hts]
      simp [hasIframeTag, Bool.or_assoc]

theorem fqLoop_terminal (s : List Tok) (hs : ∀ t ∈ s, t.isTraversal = false)
    (hne : s ≠ []) :
    ∀ docs flag pending, fqLoop docs flag pending s = (docs, pending ++ s) := by
  induction s with
  | nil => cases hne rfl
  | cons t s' ih =>
    intro docs flag pending
    have ht : t.isTraversal = false := hs t (by simp)
    have hs' : ∀ x ∈ s', x.isTraversal = false := fun x hx => hs x (by simp [hx])
    cases s' with
    | nil => simp [fqLoop]
    | cons t2 ts2 =>
      simp only [fqLoop, ht, Bool.and_false, Bool.not_false, Bool.and_true,
        Bool.false_eq_true, if_false]
      rw [ih hs' (by simp) docs _ (pending ++ [t])]
      simp

theorem fqLoop_split (docs : List LDoc) (pending : List Tok) (tr : Tok)
    (htr : tr.isTraversal = true) (ts : List Tok) (hts : ts ≠ []) :
    fqLoop docs true pending (tr :: ts)
      = fqLoop (splitDocs docs pending) false [] ts := by
  rcases hex : ts with _ | ⟨x, xs⟩
  · exact absurd hex hts
  · simp only [fqLoop, htr, Bool.true_or, Bool.and_true, Bool.true_and, if_true]

theorem fqLoop_child_noflag (docs : List LDoc) (pending : List Tok)
    (ts : List Tok) (hts : ts ≠ []) :
    fqLoop docs false pending (Tok.child :: ts)
      = fqLoop docs false (pending ++ [Tok.child]) ts := by
  rcases hex : ts with _ | ⟨x, xs⟩
  · exact absurd hex hts
  · simp only [fqLoop]
    simp [Tok.isTraversal]

theorem joinSegs_ne_nil (s : List Tok) (segs : List (List Tok)) (hs : s ≠ []) :
    joinSegs (s :: segs) ≠ [] := by
  cases segs with
  | nil => simpa [joinSegs]
  | cons s2 rest =>
    rw [show joinSegs (s :: s2 :: rest) = s ++ Tok.child :: joinSegs (s2 :: rest)
      from rfl]
    simp

theorem scanJoin_end (segs : List (List Tok)) :
    segs ≠ [] →
    (∀ s ∈ segs, (∀ t ∈ s, t.isTraversal = false) ∧ s ≠ []) →
    (∀ s ∈ segs.dropLast, hasIframeTag s = false) →
    ∀ docs pending, fqLoop docs false pending (joinSegs segs)
      = (docs, pending ++ joinSegs segs) := by
  induction segs with
  | nil => intro h; cases h rfl
  | cons s rest ih =>
    intro _ hseg hint docs pending
    cases rest with
    | nil =>
      rw [show joinSegs [s] = s from rfl]
      exact fqLoop_terminal s (hseg s (by simp)).1 (hseg s (by simp)).2 docs false pending
    | cons s2 rest2 =>
      rw [show joinSegs (s :: s2 :: rest2) = s ++ Tok.child :: joinSegs (s2 :: rest2)
        from rfl]
      have hjoin2 : joinSegs (s2 :: rest2) ≠ [] :=
        joinSegs_ne_nil s2 rest2 (hseg s2 (by simp)).2
      rw [fqLoop_compound s (hseg s (by simp)).1 docs false pending _ (by simp)]
      rw [show (false || hasIframeTag s) = false from by
        rw [hint s (by rw [List.dropLast_cons₂]; simp)]
        rfl]
      rw [fqLoop_child_noflag docs (pending ++ s) _ hjoin2]
      rw [ih (by simp) (fun x hx => hseg x (by simp [hx]))
        (fun x hx => hint x (by rw [List.dropLast_cons₂]; simp [hx]))
        docs ((pending ++ s) ++ [Tok.child])]
      simp

theorem scanJoin_split (segs : List (List Tok)) :
    segs ≠ [] →
    (∀ s ∈ segs, (∀ t ∈ s, t.isTraversal = false) ∧ s ≠ []) →
    (∀ s ∈ segs.dropLast, hasIframeTag s = false) →
    (∀ l, segs.getLast? = some l → hasIframeTag l = true) →
    ∀ docs pending ts, ts ≠ [] →
    fqLoop docs false pending (joinSegs segs ++ Tok.descendant :: ts)
      = fqLoop (splitDocs docs (pending ++ joinSegs segs)) false [] ts := by
  induction segs with
  | nil => intro h; cases h rfl
  | cons s rest ih =>
    intro _ hseg hint hlast docs pending ts hts
    cases rest with
    | nil =>
      rw [show joinSegs [s] = s from rfl]
      rw [fqLoop_compound s (hseg s (by simp)).1 docs false pending _ (by simp)]
      rw [show (false || hasIframeTag s) = true from by
        rw [hlast s rfl]
        rfl]
      exact fqLoop_split docs (pending ++ s) Tok.descendant rfl ts hts
    | cons s2 rest2 =>
      rw [show joinSegs (s :: s2 :: rest2) ++ Tok.descendant :: ts
          = s ++ Tok.child :: (joinSegs (s2 :: rest2) ++ Tok.descendant :: ts)
        from by rw [show joinSegs (s :: s2 :: rest2)
          = s ++ Tok.child :: joinSegs (s2 :: rest2) from rfl]; simp]
      rw [fqLoop_compound s (hseg s (by simp)).1 docs false pending _ (by simp)]
      rw [show (false || hasIframeTag s) = false from by
        rw [hint s (by rw [List.dropLast_cons₂]; simp)]
        rfl]
      rw [fqLoop_child_noflag docs (pending ++ s) _ (by simp)]
      rw [ih (by simp) (fun x hx => hseg x (by simp [hx]))
        (fun x hx => hint x (by rw [List.dropLast_cons₂]; simp [hx]))
        (fun l hl => hlast l (by rw [List.getLast?_cons_cons]; exact hl))
        docs ((pending ++ s) ++ [Tok.child]) ts hts]
      congr 2
      rw [show joinSegs (s :: s2 :: rest2) = s ++ Tok.child :: joinSegs (s2 :: rest2)
        from rfl]
      simp

/-! ## The derived segments of a valid element path -/

theorem elemAt_take_isSome (doc : ENode) (p : EPath)
    (hp : (elemAt doc p).isSome) (j : Nat) :
    (elemAt doc (p.take j)).isSome := by
  have hsplit : p.take j ++ p.drop j = p := List.take_append_drop j p
  rw [← hsplit, elemAt_append] at hp
  rcases h : elemAt doc (p.take j) with _ | m
  · rw [h] at hp
    simp at hp
  · simp

theorem segAt_concat (doc : ENode) (Q : EPath) (i : Nat) :
    segAt doc (Q ++ [i])
      = match elemAt doc Q with
        | some parent => segFor parent i
        | none => [] := by
  unfold segAt
  simp only [List.getLast?_concat, List.dropLast_concat]

theorem kid_of_elemAt_concat (doc : ENode) (Q : EPath) (i : Nat) (n : ENode)
    (hn : elemAt doc (Q ++ [i]) = some n) :
    ∃ par, elemAt doc Q = some par ∧ par.kids[i]? = some n := by
  rw [elemAt_append] at hn
  rcases hpar : elemAt doc Q with _ | par
  · rw [hpar] at hn
    cases hn
  · rw [hpar] at hn
    simp only [Option.some_bind] at hn
    rcases hk0 : par.kids[i]? with _ | k
    · rw [show elemAt par [i] = none from by simp [elemAt, hk0]] at hn
      cases hn
    · have hks : elemAt par [i] = some k := by simp [elemAt, hk0]
      rw [hks] at hn
      exact ⟨par, rfl, by rw [hk0, Option.some_inj.mp hn]⟩

theorem segAt_ne_nil (doc : ENode) (q : EPath)
    (hq : (elemAt doc q).isSome) : segAt doc q ≠ [] := by
  rcases q.eq_nil_or_concat with hnil | ⟨Q, i, hqc⟩
  · subst hnil
    simp [segAt]
  · rw [List.concat_eq_append] at hqc
    subst hqc
    rcases hn : elemAt doc (Q ++ [i]) with _ | n
    · rw [hn] at hq
      simp at hq
    · rcases kid_of_elemAt_concat doc Q i n hn with ⟨par, hpar, hk⟩
      rw [segAt_concat]
      unfold segFor
      simp only [hpar, hk]
      split
      · simp
      · simp

theorem hasIframeTag_segAt (doc : ENode) (q : EPath) (n : ENode)
    (hn : elemAt doc q = some n) :
    hasIframeTag (segAt doc q) = (n.tagName == "iframe") := by
  rcases q.eq_nil_or_concat with hnil | ⟨Q, i, hqc⟩
  · subst hnil
    simp only [elemAt, Option.some_inj] at hn
    subst hn
    simp [segAt, hasIframeTag]
  · rw [List.concat_eq_append] at hqc
    subst hqc
    rcases kid_of_elemAt_concat doc Q i n hn with ⟨par, hpar, hk⟩
    rw [segAt_concat]
    unfold segFor
    simp only [hpar, hk]
    split
    · simp [hasIframeTag]
    · simp [hasIframeTag]

theorem segsFrom_decomp (doc : ENode) (p : EPath) (j : Nat) (hj : j ≤ p.length) :
    segsFrom doc p j
      = ((List.range (p.length - j)).map fun r => segAt doc (p.take (j + r)))
        ++ [segAt doc p] := by
  unfold segsFrom
  rw [show p.length + 1 - j = (p.length - j) + 1 from by omega]
  rw [List.range_succ, List.map_append]
  congr 1
  simp only [List.map_cons, List.map_nil]
  rw [show j + (p.length - j) = p.length from by omega, List.take_length]

theorem segsFrom_ne_nil (doc : ENode) (p : EPath) (j : Nat) (hj : j ≤ p.length) :
    segsFrom doc p j ≠ [] := by
  rw [segsFrom_decomp doc p j hj]
  simp

theorem segsFrom_mem (doc : ENode) (p : EPath) (j : Nat) (hj : j ≤ p.length)
    (s : List Tok) (hs : s ∈ segsFrom doc p j) :
    ∃ m, j ≤ m ∧ m ≤ p.length ∧ s = segAt doc (p.take m) := by
  rw [segsFrom_decomp doc p j hj] at hs
  rcases List.mem_append.mp hs with h | h
  · rcases List.mem_map.mp h with ⟨r, hr, hseq⟩
    refine ⟨j + r, by omega, ?_, hseq.symm⟩
    simp only [List.mem_range] at hr
    omega
  · simp only [List.mem_singleton] at h
    exact ⟨p.length, hj, le_rfl, by rw [h, List.take_length]⟩

theorem segsFrom_dropLast_mem (doc : ENode) (p : EPath) (j : Nat)
    (hj : j ≤ p.length) (s : List Tok) (hs : s ∈ (segsFrom doc p j).dropLast) :
    ∃ m, j ≤ m ∧ m < p.length ∧ s = segAt doc (p.take m) := by
  rw [segsFrom_decomp doc p j hj, List.dropLast_concat] at hs
  rcases List.mem_map.mp hs with ⟨r, hr, hseq⟩
  refine ⟨j + r, by omega, ?_, hseq.symm⟩
  simp only [List.mem_range] at hr
  omega

theorem segsFrom_getLast (doc : ENode) (p : EPath) (j : Nat) (hj : j ≤ p.length) :
    (segsFrom doc p j).getLast? = some (segAt doc p) := by
  rw [segsFrom_decomp doc p j hj, List.getLast?_concat]

theorem gsFind_shape (doc : ENode) (p : EPath) :
    ∀ j0, ∃ j, j ≤ j0 ∧ gsFind doc p j0 = segsFrom doc p j := by
  intro j0
  induction j0 with
  | zero => exact ⟨0, le_rfl, rfl⟩
  | succ j ih =>
    by_cases hc : qsHead doc [joinSegs (segsFrom doc p (j + 1))] = some p
    · refine ⟨j + 1, le_rfl, ?_⟩
      show gsFind doc p (j + 1) = _
      simp only [gsFind]
      rw [if_pos hc]
    · rcases ih with ⟨j', hj', heq⟩
      refine ⟨j', by omega, ?_⟩
      show gsFind doc p (j + 1) = _
      simp only [gsFind]
      rw [if_neg hc]
      exact heq

theorem noIframeAnc_spec (doc : ENode) (p : EPath) (h : noIframeAnc doc p = true)
    (m : Nat) (hm : m < p.length) (n : ENode)
    (hn : elemAt doc (p.take m) = some n) :
    (n.tagName == "iframe") = false := by
  unfold noIframeAnc at h
  rw [List.all_eq_true] at h
  have h2 := h m (List.mem_range.mpr hm)
  simp only [hn] at h2
  simpa using h2

theorem localToks_scan_end (doc : ENode) (p : EPath)
    (hp : (elemAt doc p).isSome) (hanc : noIframeAnc doc p = true) :
    ∀ docs pending, fqLoop docs false pending (localToks doc p)
      = (docs, pending ++ localToks doc p) := by
  unfold localToks
  rcases gsFind_shape doc p p.length with ⟨j, hj, heq⟩
  rw [heq]
  apply scanJoin_end
  · exact segsFrom_ne_nil doc p j hj
  · intro s hs
    rcases segsFrom_mem doc p j hj s hs with ⟨m, _, _, hseq⟩
    subst hseq
    exact ⟨segAt_noTraversal doc _, segAt_ne_nil doc _ (elemAt_take_isSome doc p hp m)⟩
  · intro s hs
    rcases segsFrom_dropLast_mem doc p j hj s hs with ⟨m, _, hm, hseq⟩
    subst hseq
    rcases hnode : elemAt doc (p.take m) with _ | n
    · have := elemAt_take_isSome doc p hp m
      rw [hnode] at this
      simp at this
    · rw [hasIframeTag_segAt doc _ n hnode]
      exact noIframeAnc_spec doc p hanc m hm n hnode

theorem localToks_scan_split (doc : ENode) (p : EPath) (e : ENode)
    (hp : elemAt doc p = some e) (hanc : noIframeAnc doc p = true)
    (hif : e.tagName = "iframe") :
    ∀ docs pending ts, ts ≠ [] →
    fqLoop docs false pending (localToks doc p ++ Tok.descendant :: ts)
      = fqLoop (splitDocs docs (pending ++ localToks doc p)) false [] ts := by
  have hpS : (elemAt doc p).isSome := by rw [hp]; rfl
  unfold localToks
  rcases gsFind_shape doc p p.length with ⟨j, hj, heq⟩
  rw [heq]
  intro docs pending ts hts
  apply scanJoin_split
  · exact segsFrom_ne_nil doc p j hj
  · intro s hs
    rcases segsFrom_mem doc p j hj s hs with ⟨m, _, _, hseq⟩
    subst hseq
    exact ⟨segAt_noTraversal doc _, segAt_ne_nil doc _ (elemAt_take_isSome doc p hpS m)⟩
  · intro s hs
    rcases segsFrom_dropLast_mem doc p j hj s hs with ⟨m, _, hm, hseq⟩
    subst hseq
    rcases hnode : elemAt doc (p.take m) with _ | n
    · have := elemAt_take_isSome doc p hpS m
      rw [hnode] at this
      simp at this
    · rw [hasIframeTag_segAt doc _ n hnode]
      exact noIframeAnc_spec doc p hanc m hm n hnode
  · intro l hl
    rw [segsFrom_getLast doc p j hj] at hl
    have hle : l = segAt doc p := (Option.some_inj.mp hl).symm
    subst hle
    rw [hasIframeTag_segAt doc p e hp]
    simp [hif]
  · exact hts

theorem localToks_ne_nil (doc : ENode) (p : EPath)
    (hp : (elemAt doc p).isSome) : localToks doc p ≠ [] := by
  unfold localToks
  rcases gsFind_shape doc p p.length with ⟨j, hj, heq⟩
  rw [heq]
  rcases hsf : segsFrom doc p j with _ | ⟨s0, rest⟩
  · exact absurd hsf (segsFrom_ne_nil doc p j hj)
  · apply joinSegs_ne_nil
    have hmem : s0 ∈ segsFrom doc p j := by rw [hsf]; simp
    rcases segsFrom_mem doc p j hj s0 hmem with ⟨m, _, _, hseq⟩
    rw [hseq]
    exact segAt_ne_nil doc _ (elemAt_take_isSome doc p hp m)

/-! ## The frame chain of a live element -/

/-- A located element's frame chain is round-trippable: in each document
along the chain the relevant path is live and not iframe fallback
content, the document root's tag occurs only at the root (true of every
well-formed HTML document), and each crossed frame element is an iframe
with an accessible content document. -/
def chainHyp (root : ENode) : DocRef → EPath → Bool
  | [], p => (elemAt root p).isSome && noIframeAnc root p && rootTagUnique root
  | fp :: ds, p =>
    chainHyp root ds fp &&
    (match docNodeAt root ds with
     | some dOuter =>
       match elemAt dOuter fp with
       | some ifr =>
         (ifr.tagName == "iframe") &&
         (match ifr.content with
          | some dn => (elemAt dn p).isSome && noIframeAnc dn p && rootTagUnique dn
          | none => false)
       | none => false
     | none => false)

theorem chainHyp_self (root : ENode) : ∀ (d : DocRef) (p : EPath),
    chainHyp root d p = true →
    ∃ dn, docNodeAt root d = some dn ∧ (elemAt dn p).isSome = true ∧
      noIframeAnc dn p = true ∧ rootTagUnique dn = true := by
  intro d p h
  cases d with
  | nil =>
    unfold chainHyp at h
    simp only [Bool.and_eq_true] at h
    exact ⟨root, rfl, h.1.1, h.1.2, h.2⟩
  | cons fp ds =>
    unfold chainHyp at h
    rw [Bool.and_eq_true] at h
    obtain ⟨_, h2⟩ := h
    rcases hdO : docNodeAt root ds with _ | dOuter
    · simp only [hdO] at h2
      exact Bool.noConfusion h2
    · simp only [hdO] at h2
      rcases hifr : elemAt dOuter fp with _ | ifr
      · simp only [hifr] at h2
        exact Bool.noConfusion h2
      · simp only [hifr, Bool.and_eq_true] at h2
        obtain ⟨_, h3⟩ := h2
        rcases hcd : ifr.content with _ | dn
        · simp only [hcd] at h3
          exact Bool.noConfusion h3
        · simp only [hcd, Bool.and_eq_true] at h3
          refine ⟨dn, ?_, h3.1.1, h3.1.2, h3.2⟩
          unfold docNodeAt
          simp only [hdO, hifr, hcd]

theorem splitDocs_cons (dref : DocRef) (dn : ENode) (tail : List LDoc)
    (s : List Tok) :
    splitDocs ((dref, dn) :: tail) s
      = ((qsaCtx dn [s]).filterMap fun c =>
          c.node.content.map fun cd => (c.path :: dref, cd))
        ++ splitDocs tail s := by
  unfold splitDocs
  rw [List.flatMap_cons]

theorem splitDocs_head (dref : DocRef) (dn : ENode) (tail : List LDoc)
    (s : List Tok) (fp : EPath) (ifr dn2 : ENode)
    (hq : qsHead dn [s] = some fp)
    (hifr : elemAt dn fp = some ifr)
    (hcd : ifr.content = some dn2) :
    ∃ rest, splitDocs ((dref, dn) :: tail) s = (fp :: dref, dn2) :: rest := by
  unfold qsHead qsaPaths at hq
  rcases hctx : qsaCtx dn [s] with _ | ⟨c0, crest⟩
  · rw [hctx] at hq
    simp at hq
  · rw [hctx] at hq
    simp only [List.map_cons, List.head?_cons, Option.some_inj] at hq
    have hc0mem : c0 ∈ docCtx dn := by
      have hin : c0 ∈ qsaCtx dn [s] := by rw [hctx]; simp
      exact List.mem_of_mem_filter hin
    rcases ctxNode_sound dn [] [] (dn.tagName, 1) c0 hc0mem with
      ⟨q, hpath, helem, _⟩
    simp only [List.nil_append] at hpath
    rw [← hpath, hq] at helem
    have hnode : c0.node = ifr := by
      rw [helem] at hifr
      exact Option.some_inj.mp hifr
    refine ⟨(crest.filterMap fun c =>
        c.node.content.map fun cd => (c.path :: dref, cd)) ++ splitDocs tail s, ?_⟩
    rw [splitDocs_cons, hctx]
    simp only [List.filterMap_cons, hnode, hcd, Option.map_some', hq]
    rfl

theorem chainScan (root : ENode) : ∀ (d : DocRef) (p : EPath),
    chainHyp root d p = true →
    ∃ tail dn, docNodeAt root d = some dn ∧
      fqLoop [(([] : DocRef), root)] false [] (getGlobalSelector root d p)
        = ((d, dn) :: tail, localToks dn p) ∧
      (∀ e, elemAt dn p = some e → e.tagName = "iframe" →
        ∀ ts, ts ≠ [] →
          fqLoop [(([] : DocRef), root)] false []
              (getGlobalSelector root d p ++ Tok.descendant :: ts)
            = fqLoop (splitDocs ((d, dn) :: tail) (localToks dn p)) false [] ts) := by
  intro d
  induction d with
  | nil =>
    intro p h
    unfold chainHyp at h
    simp only [Bool.and_eq_true] at h
    obtain ⟨⟨hval, hanc⟩, _⟩ := h
    refine ⟨[], root, rfl, ?_, ?_⟩
    · show fqLoop [(([] : DocRef), root)] false [] (localToks root p) = _
      rw [localToks_scan_end root p hval hanc _ []]
      rfl
    · intro e he hif ts hts
      show fqLoop [(([] : DocRef), root)] false []
        (localToks root p ++ Tok.descendant :: ts) = _
      rw [localToks_scan_split root p e he hanc hif _ [] ts hts]
      rfl
  | cons fp ds ih =>
    intro p h
    have h' := h
    unfold chainHyp at h'
    rw [Bool.and_eq_true] at h'
    obtain ⟨h1, h2⟩ := h'
    rcases hdO : docNodeAt root ds with _ | dOuter
    · simp only [hdO] at h2
      exact Bool.noConfusion h2
    · simp only [hdO] at h2
      rcases hifr : elemAt dOuter fp with _ | ifr
      · simp only [hifr] at h2
        exact Bool.noConfusion h2
      · simp only [hifr, Bool.and_eq_true] at h2
        obtain ⟨hiftag, h3⟩ := h2
        rcases hcd : ifr.content with _ | dn
        · simp only [hcd] at h3
          exact Bool.noConfusion h3
        · simp only [hcd, Bool.and_eq_true] at h3
          obtain ⟨⟨hval, hanc⟩, _⟩ := h3
          rcases ih fp h1 with ⟨tail0, dOuter', hdO', hscan0, hsplit0⟩
          have hOeq : dOuter' = dOuter := by
            rw [hdO] at hdO'
            exact (Option.some_inj.mp hdO').symm
          subst hOeq
          rcases chainHyp_self root ds fp h1 with ⟨dO2, hdO2, hfpval, _, hfpU⟩
          have hO2eq : dOuter' = dO2 := by
            rw [hdO] at hdO2
            exact Option.some_inj.mp hdO2
          rw [← hO2eq] at hfpval hfpU
          have hdn : docNodeAt root (fp :: ds) = some dn := by
            unfold docNodeAt
            simp only [hdO, hifr, hcd]
          have hgg : getGlobalSelector root (fp :: ds) p
              = getGlobalSelector root ds fp ++ Tok.descendant :: localToks dn p := by
            simp only [getGlobalSelector, hdn]
          have hfirst : qsHead dOuter' [localToks dOuter' fp] = some fp :=
            localToks_first dOuter' fp hfpval hfpU
          rcases splitDocs_head ds dOuter' tail0 (localToks dOuter' fp) fp ifr dn
            hfirst hifr hcd with ⟨rest, hsd⟩
          have hiftag' : ifr.tagName = "iframe" := by simpa using hiftag
          have hlne : localToks dn p ≠ [] := localToks_ne_nil dn p hval
          refine ⟨rest, dn, hdn, ?_, ?_⟩
          · rw [hgg]
            rw [hsplit0 ifr hifr hiftag' (localToks dn p) hlne]
            rw [hsd]
            rw [localToks_scan_end dn p hval hanc _ []]
            rfl
          · intro e he hif ts hts
            rw [hgg]
            rw [show (getGlobalSelector root ds fp
                  ++ Tok.descendant :: localToks dn p) ++ Tok.descendant :: ts
                = getGlobalSelector root ds fp
                  ++ Tok.descendant :: (localToks dn p ++ Tok.descendant :: ts)
              from by simp]
            rw [hsplit0 ifr hifr hiftag' (localToks dn p ++ Tok.descendant :: ts)
              (by simp [hlne])]
            rw [hsd]
            rw [localToks_scan_split dn p e he hanc hif _ [] ts hts]
            rfl

/-! ## Claim theorems -/

/-- A main document holding one iframe whose content document holds one
div (used to refute the unrestricted flat-mode union claim). -/
def c1InnerDoc : ENode :=
  .mk "html" none 0 0 [.mk "body" none 0 0 [.mk "div" none 0 0 []]]

/-- See `c1InnerDoc`. -/
def c1CounterRoot : ENode :=
  .mk "html" none 0 0 [.mk "body" none 0 0
    [.mk "iframe" (some c1InnerDoc) 0 0 []]]

/-- C1 counterexample: for the selector `"iframe div"`, flat-mode
`globalQuerySelectorAll` routes each per-document query through the
frame-qualified engine, which crosses the frame boundary and finds the
div inside the iframe's content document — while the native
`document.querySelectorAll("iframe div")` of *every* reachable document
is empty (iframe content is a separate DOM tree), so the claimed
concatenation is empty in any visitation order. -/
theorem flat_mode_union_counterexample :
    globalQuerySelectorAll c1CounterRoot
        [[Tok.tag "iframe", Tok.descendant, Tok.tag "div"]] true ≠ [] ∧
    ∀ ld ∈ reachDocs ([], c1CounterRoot),
      qsaPaths ld.2 [[Tok.tag "iframe", Tok.descendant, Tok.tag "div"]] = [] := by
  constructor
  · have h1 : fqAll ([], c1CounterRoot)
        [[Tok.tag "iframe", Tok.descendant, Tok.tag "div"]]
        = [([[0, 0]], [0, 0])] := by decide
    simp only [globalQuerySelectorAll, if_true]
    rw [flatAllLoop, h1]
    simp
  · have hframe : frameDocs (([] : DocRef), c1CounterRoot)
        = [([[0, 0]], c1InnerDoc)] := rfl
    have hframe2 : frameDocs ([[0, 0]], c1InnerDoc) = [] := rfl
    have hreach : reachDocs ([], c1CounterRoot)
        = [([], c1CounterRoot), ([[0, 0]], c1InnerDoc)] := by
      rw [reachDocs, reachList_eq_flatMap, hframe]
      simp only [List.flatMap_cons, List.flatMap_nil, List.append_nil]
      rw [reachDocs, reachList_eq_flatMap, hframe2]
      simp
    rw [hreach]
    intro ld hld
    rcases List.mem_cons.mp hld with h | h
    · subst h; decide
    · rcases List.mem_cons.mp h with h | h
      · subst h; decide
      · cases h

/-- C1 amended: for every selector consisting of a single comma-free
segment that the frame-qualified scanner passes over without descending
(no `iframe` tag followed by a child/descendant combinator), flat-mode
`globalQuerySelectorAll` returns exactly the concatenation, in
document-visitation order, of the native per-document
`querySelectorAll` results over the visited documents; and the
visitation order is a permutation of the documents reachable from the
main document by following iframe content documents (re-discovered
fresh, in document order), so every reachable document is queried
exactly once. -/
theorem flat_mode_union (root : ENode) (seg : List Tok)
    (h : splitFree false seg = true) :
    globalQuerySelectorAll root [seg] true
      = (visitDocs ([], root)).flatMap
          (fun ld => (qsaPaths ld.2 [seg]).map fun p => (ld.1, p)) ∧
    (visitDocs ([], root)).Perm (reachDocs ([], root)) := by
  constructor
  · simp only [globalQuerySelectorAll, if_true]
    rw [flatAllLoop_eq]
    simp only [List.flatMap_cons, List.flatMap_nil, List.append_nil]
    apply List.flatMap_congr
    intro ld _
    exact fqAll_splitFree ld seg h
  · exact visitDocs_perm _

/-- Witness for C1 amended at a concrete input: the single-tag selector
`div` over an empty main document. -/
theorem flat_mode_union_witness :
    splitFree false [Tok.tag "div"] = true ∧
    (globalQuerySelectorAll (ENode.mk "html" none 0 0 []) [[Tok.tag "div"]] true
        = (visitDocs ([], ENode.mk "html" none 0 0 [])).flatMap
            (fun ld => (qsaPaths ld.2 [[Tok.tag "div"]]).map fun p => (ld.1, p)) ∧
      (visitDocs ([], ENode.mk "html" none 0 0 [])).Perm
        (reachDocs ([], ENode.mk "html" none 0 0 []))) :=
  ⟨by decide, flat_mode_union (ENode.mk "html" none 0 0 []) [Tok.tag "div"] (by decide)⟩

/-- C2: in frame-qualified mode, the selector `"iframe iframe div"`
returns exactly the divs located exactly two iframe levels deep — for
every frame tree (in particular those with at least two levels of nested
iframes each containing a div): the result is precisely the divs of the
content documents of iframes lying inside content documents of iframes
of the main document, and every returned reference crosses exactly two
frame boundaries, so no div at depth 1 or at depth 3 or deeper is
returned. -/
theorem frameQualified_iframe_iframe_div (root : ENode) :
    globalQuerySelectorAll root
        [[Tok.tag "iframe", Tok.descendant, Tok.tag "iframe",
          Tok.descendant, Tok.tag "div"]] false
      = divsAtDepth2 root ∧
    ∀ g ∈ globalQuerySelectorAll root
        [[Tok.tag "iframe", Tok.descendant, Tok.tag "iframe",
          Tok.descendant, Tok.tag "div"]] false,
      g.1.length = 2 := by
  have hdiv : ∀ ld : LDoc,
      (qsaPaths ld.2 [[Tok.tag "div"]]).map (fun p => (ld.1, p)) = divElems ld := by
    intro ld
    rw [qsaPaths_single_tag]
    simp [divElems, List.map_map]
  have hloop : fqLoop [(([] : DocRef), root)] false []
        [Tok.tag "iframe", Tok.descendant, Tok.tag "iframe",
         Tok.descendant, Tok.tag "div"]
      = (splitDocs (splitDocs [([], root)] [Tok.tag "iframe"]) [Tok.tag "iframe"],
         [Tok.tag "div"]) := rfl
  have hmain : globalQuerySelectorAll root
        [[Tok.tag "iframe", Tok.descendant, Tok.tag "iframe",
          Tok.descendant, Tok.tag "div"]] false
      = divsAtDepth2 root := by
    simp only [globalQuerySelectorAll, Bool.false_eq_true, if_false,
      fqAll, List.flatMap_cons, List.flatMap_nil, List.append_nil]
    simp only [fqAllSeg, hloop]
    rw [splitDocs_tag, splitDocs_tag]
    simp only [List.flatMap_cons, List.flatMap_nil, List.append_nil]
    unfold divsAtDepth2
    apply List.flatMap_congr
    intro ld _
    exact hdiv ld
  refine ⟨hmain, ?_⟩
  intro g hg
  rw [hmain] at hg
  rcases List.mem_flatMap.mp hg with ⟨ld2, hld2, hgin⟩
  rcases List.mem_flatMap.mp hld2 with ⟨ld1, hld1, hld2in⟩
  simp only [frameDocs, List.mem_filterMap, Option.map_eq_some'] at hld1 hld2in
  rcases hld1 with ⟨c1, _, cd1, _, hld1eq⟩
  rcases hld2in with ⟨c2, _, cd2, _, hld2eq⟩
  simp only [divElems, List.mem_map] at hgin
  rcases hgin with ⟨c3, _, hgeq⟩
  subst hgeq
  rw [← hld2eq, ← hld1eq]
  rfl

theorem replayStep_nil (elems : List GRef) (sel : Selector) (st : PassState) :
    replayStep [] elems sel st = st := by
  unfold replayStep
  simp

mutual
theorem detectOne_nil_stack (e : NavElement) : ∀ root path st,
    (detectOne root [] path st e).restored = st.restored := by
  cases e with
  | mk sel children =>
    intro root path st
    simp only [detectOne]
    split
    · rw [detectList_nil_stack children]
      rw [replayStep_nil]
      split
      · rfl
      · rfl
    · rfl

theorem detectList_nil_stack (es : List NavElement) : ∀ root path st,
    (detectList root [] path st es).restored = st.restored := by
  cases es with
  | nil => intro root path st; rfl
  | cons e es =>
    intro root path st
    simp only [detectList]
    rw [detectList_nil_stack es, detectOne_nil_stack e]
end

theorem sAttempt_fail (sel : Selector) (top : Nat) (dom : ENode) (s : ScrollW)
    (h : sFails sel top dom = true) :
    sAttempt sel top dom s = { s with attempts := s.attempts + 1 } := by
  rcases hq : globalQuerySelector dom sel false with _ | g
  · simp [sAttempt, hq]
  · rcases hg : grefNode dom g with _ | e
    · simp [sAttempt, hq, hg]
    · have hlt : (e.sh : Int) - (e.ch : Int) < (top : Int) := by
        simp only [sFails, hq, hg, decide_eq_true_eq] at h
        exact h
      simp only [sAttempt, hq, hg]
      rw [if_neg (not_le.mpr hlt)]

theorem sRun_allFail (sel : Selector) (top : Nat) (evs : List SEv)
    (h : sAllFail sel top evs = true) :
    ∀ a, sRun sel top ⟨true, true, true, false, a⟩ evs
      = ⟨true, true, true, false, a + evs.length⟩ := by
  induction evs with
  | nil => intro a; simp [sRun]
  | cons ev evs ih =>
    intro a
    cases ev with
    | timeout => simp [sAllFail] at h
    | mutation dom =>
      simp only [sAllFail, List.all_cons, Bool.and_eq_true] at h
      have hf : sFails sel top dom = true := h.1
      have ht : sAllFail sel top evs = true := by
        simpa [sAllFail] using h.2
      simp only [sRun, List.foldl_cons]
      have hstep : sStep sel top ⟨true, true, true, false, a⟩ (SEv.mutation dom)
          = ⟨true, true, true, false, a + 1⟩ := by
        simp [sStep, sAttempt_fail sel top dom _ hf]
      rw [hstep]
      have := ih ht (a + 1)
      simp only [sRun] at this
      rw [this]
      simp [List.length_cons]
      omega

theorem sStep_dead (sel : Selector) (top : Nat) (s : ScrollW)
    (h1 : s.watcher = false) (h2 : s.timer = false) (ev : SEv) :
    sStep sel top s ev = s := by
  cases ev with
  | mutation dom => simp [sStep, h1]
  | timeout => simp [sStep, h2]

theorem sRun_dead (sel : Selector) (top : Nat) (s : ScrollW)
    (h1 : s.watcher = false) (h2 : s.timer = false) (evs : List SEv) :
    sRun sel top s evs = s := by
  induction evs with
  | nil => rfl
  | cons ev evs ih =>
    simp only [sRun, List.foldl_cons]
    rw [sStep_dead sel top s h1 h2 ev]
    exact ih

/-- C9: for a scroll-map entry whose selector never again resolves to a
sufficiently tall element (every mutation of the trace fails the
restore condition, as does the DOM at setup), the entry stays in the map
with a live watcher that re-attempts restoration on every mutation (one
attempt per mutation, plus the eager one at setup); once the timeout
fires, the entry is removed from the map and the watcher disconnected,
and from then on the state — in particular the attempt count — never
changes again, whatever further events occur. -/
theorem scroll_timeout_drop (sel : Selector) (top : Nat) (dom0 : ENode)
    (evs1 evs2 : List SEv)
    (h0 : sFails sel top dom0 = true) (h1 : sAllFail sel top evs1 = true) :
    (sRun sel top (scrollSetup sel top dom0) evs1).inMap = true ∧
    (sRun sel top (scrollSetup sel top dom0) evs1).watcher = true ∧
    (sRun sel top (scrollSetup sel top dom0) evs1).attempts = evs1.length + 1 ∧
    (sRun sel top (scrollSetup sel top dom0) (evs1 ++ [SEv.timeout])).inMap = false ∧
    (sRun sel top (scrollSetup sel top dom0) (evs1 ++ [SEv.timeout])).watcher = false ∧
    sRun sel top (scrollSetup sel top dom0) (evs1 ++ SEv.timeout :: evs2)
      = sRun sel top (scrollSetup sel top dom0) (evs1 ++ [SEv.timeout]) := by
  have hsetup : scrollSetup sel top dom0 = ⟨true, true, true, false, 1⟩ := by
    unfold scrollSetup
    rw [sAttempt_fail sel top dom0 _ h0]
  have hrun1 : sRun sel top (scrollSetup sel top dom0) evs1
      = ⟨true, true, true, false, 1 + evs1.length⟩ := by
    rw [hsetup]
    exact sRun_allFail sel top evs1 h1 1
  have htod : sStep sel top (⟨true, true, true, false, 1 + evs1.length⟩ : ScrollW)
      SEv.timeout = ⟨false, false, false, false, 1 + evs1.length⟩ := by
    simp [sStep]
  have hrun2 : sRun sel top (scrollSetup sel top dom0) (evs1 ++ [SEv.timeout])
      = ⟨false, false, false, false, 1 + evs1.length⟩ := by
    simp only [sRun, List.foldl_append]
    simp only [sRun] at hrun1
    rw [hrun1]
    simpa [sRun] using htod
  refine ⟨by rw [hrun1], by rw [hrun1],
    by rw [hrun1]; show 1 + evs1.length = evs1.length + 1; omega,
    by rw [hrun2], by rw [hrun2], ?_⟩
  have hsplit : evs1 ++ SEv.timeout :: evs2 = (evs1 ++ [SEv.timeout]) ++ evs2 := by
    simp
  rw [hsplit, hrun2]
  show sRun sel top (scrollSetup sel top dom0) ((evs1 ++ [SEv.timeout]) ++ evs2) = _
  unfold sRun
  rw [List.foldl_append]
  have hrun2f := hrun2
  simp only [sRun] at hrun2f
  rw [hrun2f]
  have hdead := sRun_dead sel top ⟨false, false, false, false, 1 + evs1.length⟩
    rfl rfl evs2
  simpa [sRun] using hdead

/-- Witness for C9 at a concrete input: a selector that never matches
(`div` in an empty document), one failing mutation before the timeout,
and two further events after it. -/
theorem scroll_timeout_drop_witness :
    sFails [[Tok.tag "div"]] 1 (.mk "html" none 0 0 []) = true ∧
    sAllFail [[Tok.tag "div"]] 1 [SEv.mutation (.mk "html" none 0 0 [])] = true ∧
    ((sRun [[Tok.tag "div"]] 1
        (scrollSetup [[Tok.tag "div"]] 1 (.mk "html" none 0 0 []))
        [SEv.mutation (.mk "html" none 0 0 [])]).inMap = true ∧
     (sRun [[Tok.tag "div"]] 1
        (scrollSetup [[Tok.tag "div"]] 1 (.mk "html" none 0 0 []))
        [SEv.mutation (.mk "html" none 0 0 [])]).watcher = true ∧
     (sRun [[Tok.tag "div"]] 1
        (scrollSetup [[Tok.tag "div"]] 1 (.mk "html" none 0 0 []))
        [SEv.mutation (.mk "html" none 0 0 [])]).attempts
       = [SEv.mutation (ENode.mk "html" none 0 0 [])].length + 1 ∧
     (sRun [[Tok.tag "div"]] 1
        (scrollSetup [[Tok.tag "div"]] 1 (.mk "html" none 0 0 []))
        ([SEv.mutation (.mk "html" none 0 0 [])] ++ [SEv.timeout])).inMap = false ∧
     (sRun [[Tok.tag "div"]] 1
        (scrollSetup [[Tok.tag "div"]] 1 (.mk "html" none 0 0 []))
        ([SEv.mutation (.mk "html" none 0 0 [])] ++ [SEv.timeout])).watcher = false ∧
     sRun [[Tok.tag "div"]] 1
        (scrollSetup [[Tok.tag "div"]] 1 (.mk "html" none 0 0 []))
        ([SEv.mutation (.mk "html" none 0 0 [])]
          ++ SEv.timeout :: [SEv.mutation (.mk "html" none 0 0 []), SEv.timeout])
       = sRun [[Tok.tag "div"]] 1
          (scrollSetup [[Tok.tag "div"]] 1 (.mk "html" none 0 0 []))
          ([SEv.mutation (.mk "html" none 0 0 [])] ++ [SEv.timeout])) :=
  ⟨by decide, by decide,
   scroll_timeout_drop [[Tok.tag "div"]] 1 (.mk "html" none 0 0 [])
     [SEv.mutation (.mk "html" none 0 0 [])]
     [SEv.mutation (.mk "html" none 0 0 []), SEv.timeout]
     (by decide) (by decide)⟩

/-- C10 (implicit): a detection pass over a static snapshot that starts
with an empty navigation stack never invokes scroll restoration,
whatever the DOM, descriptor tree, descriptor path, or previously
instrumented selectors are — `restoreScrollPositions` is reachable only
from the replay branch, which an empty stack never enters. -/
theorem empty_stack_no_scroll_restore (root : ENode)
    (elements : List NavElement) (path : List NavElement)
    (tr : List Selector) :
    (detectList root [] path
      { stackIndex := 0, clicks := [], resets := 0, tracked := tr,
        restored := false } elements).restored = false := by
  rw [detectList_nil_stack]

/-- C3: For every prior navigation stack and every click on an element at
descriptor-tree depth `d = path.length` (with ordinal `k` among the
elements matching that node's selector), the click handler replaces the
stack with exactly `d + 1` entries: entries `0..d-1` equal the prior
entries where they existed, missing intermediate levels are padded with
`{selector: path-node's selector, index: 0}`, and entry `d` is
`{selector: clicked node's selector, index: k}`. -/
theorem click_replaces_stack (prev : List NavEntry) (path : List NavElement)
    (sel : Selector) (k : Nat) :
    (clickNewStack prev path sel k).length = path.length + 1 ∧
    (∀ i, i < prev.length → i < path.length →
      (clickNewStack prev path sel k)[i]? = prev[i]?) ∧
    (∀ i, prev.length ≤ i → i < path.length →
      (clickNewStack prev path sel k)[i]?
        = (path[i]?).map fun p => { selector := p.selector, index := 0 }) ∧
    (clickNewStack prev path sel k)[path.length]?
      = some { selector := sel, index := k } := by
  have hdef : clickNewStack prev path sel k
      = prev.take path.length
        ++ (path.drop (prev.take path.length).length).map
          (fun p => ({ selector := p.selector, index := 0 } : NavEntry))
        ++ [{ selector := sel, index := k }] := rfl
  have hlen : (prev.take path.length
      ++ (path.drop (prev.take path.length).length).map
        fun p => ({ selector := p.selector, index := 0 } : NavEntry)).length
      = path.length := by
    simp [List.length_take, List.length_drop]
  refine ⟨?_, ?_, ?_, ?_⟩
  · rw [hdef]
    simp only [List.length_append, hlen, List.length_cons, List.length_nil]
  · intro i hip hil
    rw [hdef]
    rw [List.getElem?_append_left (by rw [hlen]; omega)]
    rw [List.getElem?_append_left (by simp [List.length_take]; omega)]
    rw [List.getElem?_take_of_lt hil]
  · intro i hpi hil
    rw [hdef]
    rw [List.getElem?_append_left (by rw [hlen]; omega)]
    rw [List.getElem?_append_right (by simp [List.length_take]; omega)]
    rw [List.getElem?_map, List.getElem?_drop]
    congr 2
    simp [List.length_take]
    omega
  · rw [hdef]
    rw [List.getElem?_append_right (by rw [hlen])]
    rw [hlen]
    simp

/-- Witness for C3 at a concrete input: prior stack of one entry, click at
depth 2 (one intermediate level missing, so it is padded). -/
theorem click_replaces_stack_witness :
    (clickNewStack
        [{ selector := [[Tok.tag "a"]], index := 7 }]
        [NavElement.mk [[Tok.tag "a"]] [], NavElement.mk [[Tok.tag "b"]] []]
        [[Tok.tag "c"]] 2).length = 3 ∧
    (clickNewStack
        [{ selector := [[Tok.tag "a"]], index := 7 }]
        [NavElement.mk [[Tok.tag "a"]] [], NavElement.mk [[Tok.tag "b"]] []]
        [[Tok.tag "c"]] 2)[0]?
      = some { selector := [[Tok.tag "a"]], index := 7 } ∧
    (clickNewStack
        [{ selector := [[Tok.tag "a"]], index := 7 }]
        [NavElement.mk [[Tok.tag "a"]] [], NavElement.mk [[Tok.tag "b"]] []]
        [[Tok.tag "c"]] 2)[1]?
      = some { selector := [[Tok.tag "b"]], index := 0 } ∧
    (clickNewStack
        [{ selector := [[Tok.tag "a"]], index := 7 }]
        [NavElement.mk [[Tok.tag "a"]] [], NavElement.mk [[Tok.tag "b"]] []]
        [[Tok.tag "c"]] 2)[2]?
      = some { selector := [[Tok.tag "c"]], index := 2 } := by
  have h := click_replaces_stack
    [{ selector := [[Tok.tag "a"]], index := 7 }]
    [NavElement.mk [[Tok.tag "a"]] [], NavElement.mk [[Tok.tag "b"]] []]
    [[Tok.tag "c"]] 2
  refine ⟨by simpa using h.1, ?_, ?_, by simpa using h.2.2.2⟩
  · have h0 := h.2.1 0 (by decide) (by decide)
    simpa using h0
  · have h1 := h.2.2.1 1 (by decide) (by decide)
    simpa using h1

/-- C5 counterexample: the claim says a call on an already-tracked
document leaves the observer's stored state unchanged, but
`observe(target, options)` overwrites `this.options` *before* the
already-tracked check, so passing different options changes the stored
state. -/
theorem observe_idempotent_counterexample :
    (gmoObserve (.mk "html" none 0 0 [])
        { observers := [[], []], observedDocs := [[]],
          options := { childList := true, subtree := true } }
        [] (some { childList := false, subtree := false })).1
      ≠ { observers := [[], []], observedDocs := [[]],
          options := { childList := true, subtree := true } } := by
  decide

/-- C5 amended: calling `observe` on a node whose owning document is
already tracked adds no document, creates no observer handle, and fires
no notification; of the stored state only the `options` field changes,
and only when an options argument is passed (with no options argument the
state is exactly unchanged). -/
theorem observe_idempotent_amended (root : ENode) (s : GMOState)
    (target : DocRef) (opts : Option MOpts) (h : target ∈ s.observedDocs) :
    gmoObserve root s target opts
      = ({ s with options := match opts with | some o => o | none => s.options }, []) := by
  unfold gmoObserve
  cases opts with
  | none => simp [h]
  | some o => simp [h]

/-- Witness for C5 amended at a concrete input: re-observing the main
document with no options argument is a strict no-op. -/
theorem observe_idempotent_amended_witness :
    gmoObserve (.mk "html" none 0 0 [])
        { observers := [[], []], observedDocs := [[]],
          options := { childList := true, subtree := true } }
        [] none
      = ({ observers := [[], []], observedDocs := [[]],
           options := { childList := true, subtree := true } }, []) := by
  have h := observe_idempotent_amended (.mk "html" none 0 0 [])
    { observers := [[], []], observedDocs := [[]],
      options := { childList := true, subtree := true } }
    [] none (by decide)
  simpa using h

/-- C6: the spec requires a corrupt/unparseable persisted record to be
treated as absent (state-machine initialization completing with empty
stack and scroll map), but the `useState` initializers call `JSON.parse`
with no `try`/`catch`, so an unparseable stored string makes
initialization raise (`SyntaxError` propagates) instead of completing
empty; only a genuinely *absent* record yields the empty state.  The
`fun _ => none` argument instantiates the browser's `JSON.parse` on a
string (here the unparseable `"\x7b"`) on which it throws. -/
theorem init_corrupt_record_raises :
    navInitStack (fun _ => none) (some "\x7b") = .error () ∧
    navInitScroll (fun _ => none) (some "\x7b") = .error () ∧
    navInitStack (fun _ => none) none = .ok [] ∧
    navInitScroll (fun _ => none) none = .ok [] :=
  ⟨rfl, rfl, rfl, rfl⟩

/-- C7: during replay, when the stack entry at the current depth
references an ordinal index with no corresponding element among the
current matches, the activation is a no-op (no click recorded, no error —
the step is total) and the replay cursor still advances by one. -/
theorem replay_missing_element_noop (navStack : List NavEntry)
    (elems : List GRef) (sel : Selector) (st : PassState) (cur : NavEntry)
    (h1 : navStack[st.stackIndex]? = some cur) (h2 : cur.selector = sel)
    (h3 : elems.length ≤ cur.index) :
    (replayStep navStack elems sel st).clicks = st.clicks ∧
    (replayStep navStack elems sel st).stackIndex = st.stackIndex + 1 := by
  unfold replayStep
  rw [h1]
  simp only [h2, if_true, reduceIte]
  have hnone : elems[cur.index]? = none := by
    rw [List.getElem?_eq_none h3]
  rw [hnone]
  by_cases h0 : st.stackIndex = 0 <;> simp [h0] <;> split <;> simp

/-- Witness for C7 at a concrete input: stack entry with ordinal 5, only
zero matching elements. -/
theorem replay_missing_element_noop_witness :
    (replayStep [{ selector := [[Tok.tag "a"]], index := 5 }] [] [[Tok.tag "a"]]
        { stackIndex := 0, clicks := [], resets := 0, tracked := [], restored := false }).clicks
      = [] ∧
    (replayStep [{ selector := [[Tok.tag "a"]], index := 5 }] [] [[Tok.tag "a"]]
        { stackIndex := 0, clicks := [], resets := 0, tracked := [], restored := false }).stackIndex
      = 1 :=
  replay_missing_element_noop
    [{ selector := [[Tok.tag "a"]], index := 5 }] [] [[Tok.tag "a"]]
    { stackIndex := 0, clicks := [], resets := 0, tracked := [], restored := false }
    { selector := [[Tok.tag "a"]], index := 5 } (by decide) (by decide) (by decide)

/-- C8 counterexample: the claim says `takeRecords` leaves every
underlying observer's pending buffer unchanged, but the native
`takeRecords` it delegates to drains each buffer: with one observer
holding one buffered record, the state after the call differs. -/
theorem takeRecords_drains_counterexample :
    (gmoTakeRecords
        { observers := [[3]], observedDocs := [],
          options := { childList := true, subtree := true } }).2
      ≠ { observers := [[3]], observedDocs := [],
          options := { childList := true, subtree := true } } := by
  decide

/-- C8 amended: `takeRecords` returns the concatenation, in observer
creation (discovery) order, of the buffered-but-undelivered records of
every underlying observer; the `GlobalMutationObserver`'s own fields
(observer list length, tracked documents, stored options) are unchanged,
but each underlying observer's pending buffer is drained by the call
(native `takeRecords` semantics). -/
theorem takeRecords_amended (s : GMOState) :
    (gmoTakeRecords s).1 = s.observers.flatMap id ∧
    (gmoTakeRecords s).2.observedDocs = s.observedDocs ∧
    (gmoTakeRecords s).2.options = s.options ∧
    (gmoTakeRecords s).2.observers = s.observers.map (fun _ => []) ∧
    (gmoTakeRecords s).2.observers.length = s.observers.length := by
  simp [gmoTakeRecords]

theorem chain_resolves (root : ENode) (d : DocRef) (p : EPath)
    (h : chainHyp root d p = true) :
    globalQuerySelector root [getGlobalSelector root d p] false = some (d, p) := by
  rcases chainScan root d p h with ⟨tail, dn, hdn, hscan, _⟩
  rcases chainHyp_self root d p h with ⟨dn2, hdn2, hval, _, hU⟩
  have hdneq : dn2 = dn := by
    rw [hdn] at hdn2
    exact (Option.some_inj.mp hdn2).symm
  rw [hdneq] at hval hU
  have hfirst : qsHead dn [localToks dn p] = some p := localToks_first dn p hval hU
  show fqOne (([] : DocRef), root) [getGlobalSelector root d p] = some (d, p)
  simp only [fqOne, fqOneSeg, List.findSome?_cons, List.findSome?_nil, hscan]
  simp only [hfirst, Option.map_some']

/-- Concrete nested-frame instance for the round-trip: an iframe's
content document whose body holds two divs; the referenced element is
the second div. -/
def w4Inner : ENode :=
  .mk "html" none 0 0 [.mk "body" none 0 0
    [.mk "div" none 0 0 [], .mk "div" none 0 0 []]]

/-- See `w4Inner`. -/
def w4Root : ENode :=
  .mk "html" none 0 0 [.mk "body" none 0 0
    [.mk "iframe" (some w4Inner) 0 0 []]]

/-- An iframe with *fallback content*: a div placed as a child of the
iframe element itself, next to a sibling div earlier in the document. -/
def c4CeInner : ENode :=
  .mk "html" none 0 0 [.mk "body" none 0 0 []]

/-- See `c4CeInner`. -/
def c4CeRoot : ENode :=
  .mk "html" none 0 0 [.mk "body" none 0 0
    [.mk "div" none 0 0 [],
     .mk "iframe" (some c4CeInner) 0 0 [.mk "div" none 0 0 []]]]

/-- C4 counterexample: for the live div that is an iframe's fallback
content, `getGlobalSelector` derives `iframe > div`, which the
frame-qualified engine interprets as a frame descent: it resolves the
prefix `iframe` to the iframe's *content document* (which holds no div)
and the query comes back empty instead of the element itself. -/
theorem getGlobalSelector_roundtrip_counterexample :
    (elemAt c4CeRoot [0, 1, 0]).isSome = true ∧
    globalQuerySelector c4CeRoot
        [getGlobalSelector c4CeRoot [] [0, 1, 0]] false
      ≠ some (([] : DocRef), [0, 1, 0]) := by
  constructor
  · decide
  · have hsel : getGlobalSelector c4CeRoot [] [0, 1, 0]
        = [Tok.tag "iframe", Tok.child, Tok.tag "div"] := rfl
    have hstep1 : fqLoop [(([] : DocRef), c4CeRoot)] false []
        [Tok.tag "iframe", Tok.child, Tok.tag "div"]
        = fqLoop (splitDocs [(([] : DocRef), c4CeRoot)] [Tok.tag "iframe"])
            false [] [Tok.tag "div"] := by
      have h1 := fqLoop_compound [Tok.tag "iframe"] (by decide)
        [(([] : DocRef), c4CeRoot)] false [] [Tok.child, Tok.tag "div"] (by simp)
      rw [show ([Tok.tag "iframe"] ++ [Tok.child, Tok.tag "div"])
          = [Tok.tag "iframe", Tok.child, Tok.tag "div"] from rfl] at h1
      rw [h1]
      rw [show (false || hasIframeTag [Tok.tag "iframe"]) = true from rfl]
      rw [show (([] : List Tok) ++ [Tok.tag "iframe"]) = [Tok.tag "iframe"] from rfl]
      exact fqLoop_split _ _ Tok.child rfl [Tok.tag "div"] (by simp)
    have hstep2 : splitDocs [(([] : DocRef), c4CeRoot)] [Tok.tag "iframe"]
        = [([[0, 1]], c4CeInner)] := rfl
    have hstep3 : fqLoop [([[0, 1]], c4CeInner)] false [] [Tok.tag "div"]
        = ([([[0, 1]], c4CeInner)], [Tok.tag "div"]) := by
      have h3 := fqLoop_terminal [Tok.tag "div"] (by decide) (by simp)
        [([[0, 1]], c4CeInner)] false []
      simpa using h3
    show fqOne (([] : DocRef), c4CeRoot)
        [getGlobalSelector c4CeRoot [] [0, 1, 0]] ≠ some (([] : DocRef), [0, 1, 0])
    rw [hsel]
    simp only [fqOne, fqOneSeg, List.findSome?_cons, List.findSome?_nil,
      hstep1, hstep2, hstep3]
    decide

/-- C4 corrected: the unrestricted round-trip fails for iframe fallback
content (see the counterexample), so the claim is amended to elements
whose frame chain is round-trippable (`chainHyp`: live paths, no iframe
strict ancestor within a document, unique root tag per document — true
of real HTML documents — and accessible content documents at each
crossed frame).  For every such element, the derived selector, queried
in frame-qualified mode (`searchAllDocuments = false`), resolves back to
exactly that element; and when the owning document is an iframe's
content document the derived selector is the enclosing iframe's own
global selector, a descendant combinator, and the element's in-document
path. -/
theorem getGlobalSelector_roundtrip (root : ENode) (d : DocRef) (p : EPath)
    (h : chainHyp root d p = true) :
    globalQuerySelector root [getGlobalSelector root d p] false = some (d, p) ∧
    ∀ fp ds, d = fp :: ds → ∃ dn, docNodeAt root d = some dn ∧
      getGlobalSelector root d p
        = getGlobalSelector root ds fp ++ Tok.descendant :: localToks dn p := by
  constructor
  · exact chain_resolves root d p h
  · intro fp ds hd
    subst hd
    rcases chainHyp_self root (fp :: ds) p h with ⟨dn, hdn, _, _, _⟩
    refine ⟨dn, hdn, ?_⟩
    simp only [getGlobalSelector, hdn]

/-- Witness for C4 at a concrete input: the second div inside a nested
iframe document round-trips to itself, and its selector is the iframe's
selector, a descendant combinator, and the in-document path. -/
theorem getGlobalSelector_roundtrip_witness :
    chainHyp w4Root [[0, 0]] [0, 1] = true ∧
    (globalQuerySelector w4Root
        [getGlobalSelector w4Root [[0, 0]] [0, 1]] false
        = some ([[0, 0]], [0, 1]) ∧
      ∀ fp ds, ([[0, 0]] : DocRef) = fp :: ds →
        ∃ dn, docNodeAt w4Root [[0, 0]] = some dn ∧
          getGlobalSelector w4Root [[0, 0]] [0, 1]
            = getGlobalSelector w4Root ds fp
              ++ Tok.descendant :: localToks dn [0, 1]) :=
  ⟨by decide, getGlobalSelector_roundtrip w4Root [[0, 0]] [0, 1] (by decide)⟩

end MyPack
